import Mathlib

/-!
Verification of the incremental document indexing pipeline
(backend/app: parser, chunker, vector service, indexing orchestrator).

The Lean definitions below are a shallow embedding of the Python sources:
  - backend/app/core/chunking.py   (TextChunker)
  - backend/app/core/parser.py     (DocumentParser)
  - backend/app/core/vectordb.py   (QdrantService)
  - backend/app/services/indexer.py (DocumentIndexer)
Pure helpers become Lean functions; the SQLite / Qdrant state becomes an
explicit state record threaded through the orchestrator; machine floats in
the token estimator are modelled by exact binary64 rounding on naturals.
-/

namespace Rag

open scoped List

/-! ## Python string primitives -/

/-- ASCII whitespace as recognised by Python str.strip / str.isspace. -/
def pyIsSpace (c : Char) : Bool :=
  c = ' ' || c = '\t' || c = '\n' || c = '\r' || c = '\x0b' || c = '\x0c'

/-- Python str.strip(): drop leading and trailing whitespace. -/
def pyStrip (s : String) : String :=
  String.mk (((s.data.dropWhile pyIsSpace).reverse.dropWhile pyIsSpace).reverse)

/-- A word character for the regex class backslash-w (ASCII fragment). -/
def pyIsWord (c : Char) : Bool := c.isAlphanum || c = '_'

/-- Count maximal runs of word characters: the length of
re.findall of one-or-more word chars over the text.  The Bool argument says
whether the previous character was a word character. -/
def countWordRuns : List Char → Bool → Nat
  | [], _ => 0
  | c :: rest, inRun =>
    let w := pyIsWord c
    (if w && !inRun then 1 else 0) + countWordRuns rest w

def wordCount (s : String) : Nat := countWordRuns s.data false

/-! ## Binary64 model of the token estimate

TextChunker._estimate_tokens computes max(1, ceil(len(words) * 1.3)) with
IEEE binary64 arithmetic.  The literal 1.3 is the double
5854679515581645 * 2^(-52); the product with the exact integer n is rounded
to 53 significant bits (round to nearest, ties to even), and the ceiling of
the rounded value is taken.  All of that is exact Nat arithmetic. -/

/-- Mantissa of the IEEE binary64 value closest to 1.3, scaled by 2^52. -/
def mant13 : Nat := 5854679515581645

/-- Round a natural number to 53 significant bits, nearest, ties to even:
the binary64 rounding of the exact product. -/
def floatRound53 (p : Nat) : Nat :=
  if p < 2 ^ 53 then p
  else
    let k := Nat.log2 p - 52
    let q := p / 2 ^ k
    let r := p % 2 ^ k
    let half := 2 ^ (k - 1)
    (if half < r ∨ (r = half ∧ q % 2 = 1) then q + 1 else q) * 2 ^ k

/-- TextChunker._estimate_tokens: word count times the double 1.3, ceiling,
floor of one. -/
def estimateTokens (text : String) : Nat :=
  let p := floatRound53 (wordCount text * mant13)
  max 1 ((p + 2 ^ 52 - 1) / 2 ^ 52)

/-! ## Sentence splitting

TextChunker.sentence_pattern is the regex
  one-or-more characters other than . ! ?  followed by
  (a run of . ! ? characters, or end of input),
scanned with finditer.  A match therefore always starts at a
non-terminator character, takes the maximal run of non-terminators, then
the maximal run of terminators (empty only at end of input); characters
skipped by finditer are exactly terminator characters not preceded by a
non-terminator, which can occur only before the first match. -/

def isSentTerm (c : Char) : Bool := c = '.' || c = '!' || c = '?'

def notSentTerm (c : Char) : Bool := !(isSentTerm c)

/-- Helper: the head of a non-empty dropWhile result fails the predicate. -/
theorem dropWhile_head_false {p : Char → Bool} {cs : List Char} {c : Char}
    {rest : List Char} (h : cs.dropWhile p = c :: rest) : p c = false := by
  have hh := List.head?_dropWhile_not p cs
  rw [h] at hh
  simpa using hh

/-- The regex scanner strictly consumes input at each match. -/
theorem dropWhile_dropWhile_length_lt {cs : List Char} {c : Char}
    {rest : List Char} (h : cs.dropWhile isSentTerm = c :: rest) :
    (((c :: rest).dropWhile notSentTerm).dropWhile isSentTerm).length < cs.length := by
  have h1 : (c :: rest).length ≤ cs.length :=
    h ▸ (List.dropWhile_suffix isSentTerm).length_le
  have hc : notSentTerm c = true := by
    simp [notSentTerm, dropWhile_head_false h]
  have h2 : ((c :: rest).dropWhile notSentTerm).length ≤ rest.length := by
    rw [List.dropWhile_cons_of_pos hc]
    exact (List.dropWhile_suffix notSentTerm).length_le
  have h3 : (((c :: rest).dropWhile notSentTerm).dropWhile isSentTerm).length
      ≤ ((c :: rest).dropWhile notSentTerm).length :=
    (List.dropWhile_suffix isSentTerm).length_le
  simp only [List.length_cons] at h1
  omega

/-- One finditer step per unit of fuel: each match consumes at least one
character, so a fuel of cs.length always suffices
(rawMatchesFuel_congr below); structural recursion on the fuel keeps the
definition kernel-reducible. -/
def rawMatchesFuel : Nat → Nat → List Char → List (Nat × Nat × List Char)
  | 0, _, _ => []
  | fuel + 1, pos, cs =>
    match cs.dropWhile isSentTerm with
    | [] => []
    | c :: rest =>
      let body := (c :: rest).takeWhile notSentTerm
      let afterBody := (c :: rest).dropWhile notSentTerm
      let terms := afterBody.takeWhile isSentTerm
      let tail := afterBody.dropWhile isSentTerm
      let mstart := pos + (cs.length - (c :: rest).length)
      let mstop := mstart + body.length + terms.length
      (mstart, mstop, body ++ terms) :: rawMatchesFuel fuel mstop tail

/-- All regex matches in the remaining text cs, which starts at absolute
position pos.  Each entry is (start, stop, matched characters). -/
def rawMatches (pos : Nat) (cs : List Char) : List (Nat × Nat × List Char) :=
  rawMatchesFuel cs.length pos cs

/-- The fuel is irrelevant as soon as it covers the text length. -/
theorem rawMatchesFuel_congr :
    ∀ (f1 f2 pos : Nat) (cs : List Char), cs.length ≤ f1 → cs.length ≤ f2 →
    rawMatchesFuel f1 pos cs = rawMatchesFuel f2 pos cs
  | 0, f2, pos, cs, h1, h2 => by
    have : cs = [] := List.length_eq_zero.mp (Nat.le_zero.mp h1)
    subst this
    cases f2 <;> rfl
  | f1 + 1, 0, pos, cs, h1, h2 => by
    have : cs = [] := List.length_eq_zero.mp (Nat.le_zero.mp h2)
    subst this
    rfl
  | f1 + 1, f2 + 1, pos, cs, h1, h2 => by
    rw [rawMatchesFuel, rawMatchesFuel]
    cases hdw : cs.dropWhile isSentTerm with
    | nil => rfl
    | cons c rest =>
      dsimp only
      congr 1
      have hlt := dropWhile_dropWhile_length_lt hdw
      exact rawMatchesFuel_congr f1 f2 _ _ (by omega) (by omega)

/-- A sentence record as produced by TextChunker._split_into_sentences:
stripped text, start and past-the-end character offsets of the raw match,
and the token estimate of the stripped text.  The Python dict key end is
called stop here. -/
structure Sentence where
  text : String
  start : Nat
  stop : Nat
  tokens : Nat
deriving Repr, DecidableEq

/-- TextChunker._split_into_sentences. -/
def splitIntoSentences (text : String) : List Sentence :=
  let ms := rawMatches 0 text.data
  let ss := ms.filterMap fun m =>
    let t := pyStrip (String.mk m.2.2)
    if t = "" then none
    else some ⟨t, m.1, m.2.1, estimateTokens t⟩
  if ss.isEmpty then
    [⟨pyStrip text, 0, text.length, estimateTokens text⟩]
  else ss

/-! ## Chunking

TextChunker.chunk greedily accumulates sentences into a current chunk;
when adding the next sentence would exceed chunk_size and the current
chunk is non-empty it is closed, and _apply_overlap seeds the next chunk
with a trailing window of the just-closed chunk's sentences. -/

/-- A chunk record as returned by TextChunker.chunk (the dict produced by
ChunkMetadata.as_dict). -/
structure ChunkMetadata where
  text : String
  index : Nat
  start_char : Nat
  end_char : Nat
  token_count : Nat
deriving Repr, DecidableEq

def defaultSentence : Sentence := ⟨"", 0, 0, 0⟩

/-- TextChunker._finalize_chunk: join the sentence texts with spaces and
strip, take the first sentence's start, the last sentence's end, and the
token sum.  The Python code indexes sentences[0] and sentences[-1] and is
only called on non-empty lists; the defaults are never reached. -/
def finalizeChunk (sentences : List Sentence) (index : Nat) : ChunkMetadata :=
  { text := pyStrip (String.intercalate " " (sentences.map Sentence.text))
    index := index
    start_char := (sentences.headD defaultSentence).start
    end_char := (sentences.getLastD defaultSentence).stop
    token_count := (sentences.map Sentence.tokens).sum }

/-- The loop of TextChunker._apply_overlap: walk the closed chunk's
sentences backward (first argument is the reversed list), prepending each
to the window, stopping as soon as the accumulated tokens reach the
overlap parameter.  Note the stop test runs after the first insertion, so
the window always receives at least one sentence. -/
def applyOverlapGo (overlap : Nat) : List Sentence → List Sentence → Nat →
    List Sentence × Nat
  | [], acc, tok => (acc, tok)
  | s :: rest, acc, tok =>
    let acc2 := s :: acc
    let tok2 := tok + s.tokens
    if overlap ≤ tok2 then (acc2, tok2) else applyOverlapGo overlap rest acc2 tok2

/-- TextChunker._apply_overlap. -/
def applyOverlap (sentences : List Sentence) (overlap : Nat) :
    List Sentence × Nat :=
  applyOverlapGo overlap sentences.reverse [] 0

/-- The sentence loop of TextChunker.chunk.  Arguments: remaining
sentences, chunks built so far, current sentence accumulator, accumulated
token count. -/
def chunkLoop (chunkSize overlap : Nat) :
    List Sentence → List ChunkMetadata → List Sentence → Nat →
    List ChunkMetadata
  | [], chunks, current, _ =>
    if current.isEmpty then chunks
    else chunks ++ [finalizeChunk current chunks.length]
  | s :: rest, chunks, current, currentTokens =>
    if current ≠ [] ∧ chunkSize < currentTokens + s.tokens then
      let p := applyOverlap current overlap
      chunkLoop chunkSize overlap rest
        (chunks ++ [finalizeChunk current chunks.length])
        (p.1 ++ [s]) (p.2 + s.tokens)
    else
      chunkLoop chunkSize overlap rest chunks (current ++ [s])
        (currentTokens + s.tokens)

/-- TextChunker.chunk.  The Python defaults are chunk_size 512 and
overlap 50; the parameters are explicit here. -/
def chunk (text : String) (chunkSize overlap : Nat) : List ChunkMetadata :=
  if text = "" then []
  else chunkLoop chunkSize overlap (splitIntoSentences text) [] [] 0

/-! A specification view of the same loop: the chunks as lists of
sentences, before _finalize_chunk is applied.  chunkLoop_eq_groups below
proves that chunk is exactly the finalization of these groups in order. -/

/-- The sentence groups formed by the chunk loop. -/
def chunkGroupsGo (chunkSize overlap : Nat) :
    List Sentence → List Sentence → Nat → List (List Sentence)
  | [], current, _ => if current.isEmpty then [] else [current]
  | s :: rest, current, currentTokens =>
    if current ≠ [] ∧ chunkSize < currentTokens + s.tokens then
      let p := applyOverlap current overlap
      current :: chunkGroupsGo chunkSize overlap rest (p.1 ++ [s])
        (p.2 + s.tokens)
    else
      chunkGroupsGo chunkSize overlap rest (current ++ [s])
        (currentTokens + s.tokens)

/-- The sentence groups underlying chunk text. -/
def chunkGroups (sentences : List Sentence) (chunkSize overlap : Nat) :
    List (List Sentence) :=
  chunkGroupsGo chunkSize overlap sentences [] 0

/-- Pair each list element with its index, starting at n. -/
def numberFrom (n : Nat) : List α → List (Nat × α)
  | [] => []
  | a :: l => (n, a) :: numberFrom (n + 1) l

theorem numberFrom_nil (n : Nat) : numberFrom n ([] : List α) = [] := rfl

theorem numberFrom_cons (n : Nat) (a : α) (l : List α) :
    numberFrom n (a :: l) = (n, a) :: numberFrom (n + 1) l := rfl

/-- The chunk loop is the finalization of the sentence groups, with
indices counted from the chunks already accumulated. -/
theorem chunkLoop_eq_groups (chunkSize overlap : Nat) :
    ∀ (rest : List Sentence) (chunks : List ChunkMetadata)
      (current : List Sentence) (t : Nat),
    chunkLoop chunkSize overlap rest chunks current t =
      chunks ++ (numberFrom chunks.length
        (chunkGroupsGo chunkSize overlap rest current t)).map
          (fun p => finalizeChunk p.2 p.1)
  | [], chunks, current, t => by
    by_cases hc : current.isEmpty
    · simp [chunkLoop, chunkGroupsGo, hc, numberFrom_nil]
    · simp [chunkLoop, chunkGroupsGo, hc, numberFrom_cons, numberFrom_nil]
  | s :: rest, chunks, current, t => by
    by_cases hc : current ≠ [] ∧ chunkSize < t + s.tokens
    · rw [chunkLoop, chunkGroupsGo]
      simp only [hc, if_pos]
      rw [chunkLoop_eq_groups chunkSize overlap rest]
      simp [hc.1, numberFrom_cons, List.length_append, List.append_assoc]
    · rw [chunkLoop, chunkGroupsGo]
      simp only [hc, if_neg, not_false_eq_true]
      exact chunkLoop_eq_groups chunkSize overlap rest chunks
        (current ++ [s]) (t + s.tokens)

/-! ## Structural lemmas about the splitter and the chunk loop -/

theorem numberFrom_mem :
    ∀ {l : List α} {n : Nat} {p : Nat × α}, p ∈ numberFrom n l → p.2 ∈ l
  | [], _, _, h => by simp [numberFrom] at h
  | a :: t, n, p, h => by
    rw [numberFrom_cons] at h
    rcases List.mem_cons.mp h with h | h
    · simp [h]
    · exact List.mem_cons_of_mem a (numberFrom_mem h)

theorem numberFrom_map_snd (f : α → β) :
    ∀ (l : List α) (n : Nat),
    (numberFrom n l).map (fun p => f p.2) = l.map f
  | [], _ => rfl
  | a :: t, n => by
    rw [numberFrom_cons]
    simp [numberFrom_map_snd f t (n + 1)]

theorem applyOverlapGo_suffix (ov : Nat) :
    ∀ (l acc : List Sentence) (tok : Nat),
    (applyOverlapGo ov l acc tok).1 <:+ l.reverse ++ acc
  | [], acc, tok => by simp [applyOverlapGo]
  | s :: rest, acc, tok => by
    rw [applyOverlapGo]
    by_cases h : ov ≤ tok + s.tokens
    · simp only [h, if_pos]
      rw [List.reverse_cons, List.append_assoc]
      exact List.suffix_append _ _
    · simp only [h, if_neg, not_false_eq_true]
      have := applyOverlapGo_suffix ov rest (s :: acc) (tok + s.tokens)
      rwa [List.reverse_cons, List.append_assoc, List.singleton_append]

theorem applyOverlap_suffix (ss : List Sentence) (ov : Nat) :
    (applyOverlap ss ov).1 <:+ ss := by
  have h := applyOverlapGo_suffix ov ss.reverse [] 0
  rwa [List.reverse_reverse, List.append_nil] at h

/-- With overlap 0 the stop test passes after the very first insertion, so
the overlap window is exactly the closed chunk's last sentence. -/
theorem applyOverlap_zero {ss : List Sentence} {a : Sentence}
    (h : ss.getLast? = some a) : applyOverlap ss 0 = ([a], a.tokens) := by
  have hrev : ss.reverse.head? = some a := by
    rw [List.head?_reverse]; exact h
  obtain ⟨t, ht⟩ : ∃ t, ss.reverse = a :: t := by
    cases hcase : ss.reverse with
    | nil => rw [hcase] at hrev; cases hrev
    | cons b u =>
      rw [hcase] at hrev
      simp only [List.head?_cons, Option.some.injEq] at hrev
      exact ⟨u, by rw [hrev]⟩
  rw [applyOverlap, ht, applyOverlapGo]
  simp

/-- Unfolding equation for rawMatches when the scanner finds no further
non-terminator character. -/
theorem rawMatches_eq_nil {pos : Nat} {cs : List Char}
    (h : cs.dropWhile isSentTerm = []) : rawMatches pos cs = [] := by
  rw [rawMatches]
  cases cs with
  | nil => rfl
  | cons c0 cs2 =>
    show rawMatchesFuel (cs2.length + 1) pos (c0 :: cs2) = []
    rw [rawMatchesFuel, h]

/-- Unfolding equation for rawMatches at a match. -/
theorem rawMatches_eq_cons {pos : Nat} {cs : List Char} {c : Char}
    {rest : List Char} (h : cs.dropWhile isSentTerm = c :: rest) :
    rawMatches pos cs =
      (pos + (cs.length - (c :: rest).length),
       pos + (cs.length - (c :: rest).length)
         + ((c :: rest).takeWhile notSentTerm).length
         + (((c :: rest).dropWhile notSentTerm).takeWhile isSentTerm).length,
       (c :: rest).takeWhile notSentTerm
         ++ ((c :: rest).dropWhile notSentTerm).takeWhile isSentTerm)
      :: rawMatches
        (pos + (cs.length - (c :: rest).length)
          + ((c :: rest).takeWhile notSentTerm).length
          + (((c :: rest).dropWhile notSentTerm).takeWhile isSentTerm).length)
        (((c :: rest).dropWhile notSentTerm).dropWhile isSentTerm) := by
  cases cs with
  | nil => cases h
  | cons c0 cs2 =>
    rw [rawMatches]
    show rawMatchesFuel (cs2.length + 1) pos (c0 :: cs2) = _
    rw [rawMatchesFuel, h]
    dsimp only
    rw [rawMatches]
    congr 1
    have hlt := dropWhile_dropWhile_length_lt h
    simp only [List.length_cons] at hlt
    exact rawMatchesFuel_congr cs2.length
      ((((c :: rest).dropWhile notSentTerm).dropWhile isSentTerm).length) _ _
      (by omega) (Nat.le_refl _)

/-- Arithmetic facts about the components of one regex match. -/
theorem rawMatches_components {cs : List Char} {c : Char} {rest : List Char}
    (h : cs.dropWhile isSentTerm = c :: rest) :
    (c :: rest).length ≤ cs.length ∧
    0 < ((c :: rest).takeWhile notSentTerm).length ∧
    ((c :: rest).takeWhile notSentTerm).length +
      ((c :: rest).dropWhile notSentTerm).length = (c :: rest).length ∧
    (((c :: rest).dropWhile notSentTerm).takeWhile isSentTerm).length +
      (((c :: rest).dropWhile notSentTerm).dropWhile isSentTerm).length =
      ((c :: rest).dropWhile notSentTerm).length := by
  have hc : notSentTerm c = true := by
    simp [notSentTerm, dropWhile_head_false h]
  refine ⟨h ▸ (List.dropWhile_suffix isSentTerm).length_le, ?_, ?_, ?_⟩
  · rw [List.takeWhile_cons_of_pos hc]; simp
  · conv_rhs => rw [← List.takeWhile_append_dropWhile (p := notSentTerm)
      (l := c :: rest)]
    rw [List.length_append]
  · conv_rhs => rw [← List.takeWhile_append_dropWhile (p := isSentTerm)
      (l := (c :: rest).dropWhile notSentTerm)]
    rw [List.length_append]

/-- Every regex match lies inside the scanned region, is non-empty, and
the matches are disjoint and ordered left to right. -/
theorem rawMatches_spec_aux :
    ∀ (n : Nat) (cs : List Char), cs.length ≤ n → ∀ (pos : Nat),
    (∀ m ∈ rawMatches pos cs,
      pos ≤ m.1 ∧ m.1 < m.2.1 ∧ m.2.1 ≤ pos + cs.length) ∧
    (rawMatches pos cs).Pairwise (fun a b => a.2.1 ≤ b.1)
  | 0, cs, hcs, pos => by
    have : cs = [] := List.length_eq_zero.mp (Nat.le_zero.mp hcs)
    subst this
    rw [rawMatches_eq_nil (by rfl)]
    simp
  | n + 1, cs, hcs, pos => by
    cases hdw : cs.dropWhile isSentTerm with
    | nil =>
      rw [rawMatches_eq_nil hdw]
      simp
    | cons c rest =>
      obtain ⟨hlen, hbody1, hbody, hterms⟩ := rawMatches_components hdw
      have hlt := dropWhile_dropWhile_length_lt hdw
      have hrec := rawMatches_spec_aux n
        (((c :: rest).dropWhile notSentTerm).dropWhile isSentTerm)
        (by omega)
        (pos + (cs.length - (c :: rest).length)
          + ((c :: rest).takeWhile notSentTerm).length
          + (((c :: rest).dropWhile notSentTerm).takeWhile isSentTerm).length)
      rw [rawMatches_eq_cons hdw]
      constructor
      · intro m hm
        rcases List.mem_cons.mp hm with hm | hm
        · subst hm
          refine ⟨Nat.le_add_right _ _, ?_, ?_⟩
          · show pos + (cs.length - (c :: rest).length)
              < pos + (cs.length - (c :: rest).length)
                + ((c :: rest).takeWhile notSentTerm).length
                + (((c :: rest).dropWhile notSentTerm).takeWhile isSentTerm).length
            omega
          · show pos + (cs.length - (c :: rest).length)
                + ((c :: rest).takeWhile notSentTerm).length
                + (((c :: rest).dropWhile notSentTerm).takeWhile isSentTerm).length
              ≤ pos + cs.length
            omega
        · have h1 := (hrec.1 m hm).1
          have h2 := (hrec.1 m hm).2.1
          have h3 := (hrec.1 m hm).2.2
          refine ⟨by omega, h2, by omega⟩
      · refine List.pairwise_cons.mpr ⟨?_, hrec.2⟩
        intro m hm
        exact (hrec.1 m hm).1

/-- Every regex match lies inside the scanned region and is non-empty. -/
theorem rawMatches_spec (pos : Nat) (cs : List Char) :
    ∀ m ∈ rawMatches pos cs,
      pos ≤ m.1 ∧ m.1 < m.2.1 ∧ m.2.1 ≤ pos + cs.length :=
  (rawMatches_spec_aux cs.length cs (Nat.le_refl _) pos).1

/-- The regex matches are disjoint and ordered left to right. -/
theorem rawMatches_pairwise (pos : Nat) (cs : List Char) :
    (rawMatches pos cs).Pairwise (fun a b => a.2.1 ≤ b.1) :=
  (rawMatches_spec_aux cs.length cs (Nat.le_refl _) pos).2

/-- Well-formedness of a sentence list over a text of length n: offsets are
ordered within each sentence, bounded by n, and sentences do not overlap. -/
def SentencesWF (n : Nat) (ss : List Sentence) : Prop :=
  (∀ s ∈ ss, s.start ≤ s.stop ∧ s.stop ≤ n) ∧
    ss.Pairwise (fun a b => a.stop ≤ b.start)

theorem splitIntoSentences_wf (text : String) :
    SentencesWF text.length (splitIntoSentences text) := by
  rw [splitIntoSentences]
  dsimp only
  set f : Nat × Nat × List Char → Option Sentence := fun m =>
    let t := pyStrip (String.mk m.2.2)
    if t = "" then none else some ⟨t, m.1, m.2.1, estimateTokens t⟩ with hf
  by_cases hss : ((rawMatches 0 text.data).filterMap f).isEmpty
  · simp only [hss, if_pos]
    constructor
    · intro s hs
      simp only [List.mem_singleton] at hs
      subst hs
      exact ⟨Nat.zero_le _, Nat.le_refl _⟩
    · exact List.pairwise_singleton _ _
  · simp only [hss, if_neg, not_false_eq_true]
    constructor
    · intro s hs
      rcases List.mem_filterMap.mp hs with ⟨m, hm, hfm⟩
      have hspec := rawMatches_spec 0 text.data m hm
      have : s.start = m.1 ∧ s.stop = m.2.1 := by
        rw [hf] at hfm
        dsimp only at hfm
        split at hfm
        · exact absurd hfm (by simp)
        · cases hfm; exact ⟨rfl, rfl⟩
      rcases this with ⟨h1, h2⟩
      rw [h1, h2]
      refine ⟨Nat.le_of_lt hspec.2.1, ?_⟩
      have : String.length text = text.data.length := rfl
      omega
    · refine List.Pairwise.filterMap f ?_ (rawMatches_pairwise 0 text.data)
      intro a b hab x hx y hy
      rw [hf] at hx hy
      dsimp only at hx hy
      split at hx
      · exact absurd hx (by simp)
      · split at hy
        · exact absurd hy (by simp)
        · cases hx; cases hy; exact hab

theorem splitIntoSentences_ne_nil (text : String) :
    splitIntoSentences text ≠ [] := by
  rw [splitIntoSentences]
  dsimp only
  split
  · simp
  · next hss => simpa [List.isEmpty_iff] using hss

/-- Every sentence group built by the chunk loop is a non-empty sublist of
the full sentence list; the overlap window is a suffix of the closed chunk
and the appended sentence is the next one in order. -/
theorem chunkGroupsGo_sublist (cs ov : Nat) :
    ∀ (rest current : List Sentence) (t : Nat) (sents : List Sentence),
    (current ++ rest) <+ sents →
    ∀ g ∈ chunkGroupsGo cs ov rest current t, g ≠ [] ∧ g <+ sents
  | [], current, t, sents, hsub, g, hg => by
    rw [chunkGroupsGo] at hg
    by_cases hc : current.isEmpty
    · simp [hc] at hg
    · simp only [hc, Bool.false_eq_true, if_false, List.mem_singleton] at hg
      subst hg
      refine ⟨by simpa [List.isEmpty_iff] using hc, ?_⟩
      rw [List.append_nil] at hsub
      exact hsub
  | s :: rest, current, t, sents, hsub, g, hg => by
    rw [chunkGroupsGo] at hg
    by_cases hc : current ≠ [] ∧ cs < t + s.tokens
    · rw [if_pos hc] at hg
      rcases List.mem_cons.mp hg with hg | hg
      · subst hg
        refine ⟨hc.1, ?_⟩
        exact (List.sublist_append_left g (s :: rest)).trans hsub
      · refine chunkGroupsGo_sublist cs ov rest
          ((applyOverlap current ov).1 ++ [s]) ((applyOverlap current ov).2 + s.tokens)
          sents ?_ g hg
        have h1 : (applyOverlap current ov).1 <+ current :=
          (applyOverlap_suffix current ov).sublist
        have h2 : ((applyOverlap current ov).1 ++ (s :: rest))
            <+ (current ++ (s :: rest)) :=
          h1.append (List.Sublist.refl (s :: rest))
        have h3 : ((applyOverlap current ov).1 ++ [s]) ++ rest
            = (applyOverlap current ov).1 ++ (s :: rest) := by
          rw [List.append_assoc, List.singleton_append]
        rw [h3]
        exact h2.trans hsub
    · rw [if_neg hc] at hg
      refine chunkGroupsGo_sublist cs ov rest (current ++ [s]) (t + s.tokens)
        sents ?_ g hg
      rw [List.append_assoc, List.singleton_append]
      exact hsub

/-- The head and the last element of a non-empty, ordered,
bounded sentence list give ordered, bounded offsets. -/
theorem wf_head_last {n : Nat} {l : List Sentence} {x : Sentence}
    (hx : l.getLast? = some x)
    (hmem : ∀ y ∈ l, y.start ≤ y.stop ∧ y.stop ≤ n)
    (hpw : l.Pairwise (fun a b => a.stop ≤ b.start)) :
    (l.headD defaultSentence).start ≤ x.stop ∧ x.stop ≤ n := by
  cases l with
  | nil => cases hx
  | cons a t =>
    cases t with
    | nil =>
      have hxa : a = x := by simpa using hx
      subst hxa
      simpa using hmem a (by simp)
    | cons b u =>
      have hxl : x ∈ b :: u := by
        rw [List.getLast?_cons_cons] at hx
        exact List.mem_of_getLast?_eq_some hx
      have hrel := (List.pairwise_cons.mp hpw).1 x hxl
      have ha := hmem a (by simp)
      have hxx := hmem x (List.mem_cons_of_mem a hxl)
      simp only [List.headD_cons]
      exact ⟨le_trans ha.1 (le_trans hrel hxx.1), hxx.2⟩

/-- Finalizing a non-empty group of well-formed sentences yields ordered,
bounded character offsets. -/
theorem finalizeChunk_wf {n : Nat} {sents g : List Sentence} {i : Nat}
    (hwf : SentencesWF n sents) (hne : g ≠ []) (hsub : g <+ sents) :
    (finalizeChunk g i).start_char ≤ (finalizeChunk g i).end_char ∧
    (finalizeChunk g i).end_char ≤ n := by
  have hx : g.getLast? = some (g.getLast hne) := List.getLast?_eq_getLast g hne
  have hmem : ∀ y ∈ g, y.start ≤ y.stop ∧ y.stop ≤ n :=
    fun y hy => hwf.1 y (hsub.subset hy)
  have hpw := hwf.2.sublist hsub
  have hb := wf_head_last hx hmem hpw
  have hgl : g.getLastD defaultSentence = g.getLast hne := by
    rw [List.getLastD_eq_getLast?, hx]
    rfl
  constructor
  · show (g.headD defaultSentence).start ≤ (g.getLastD defaultSentence).stop
    rw [hgl]
    exact hb.1
  · show (g.getLastD defaultSentence).stop ≤ n
    rw [hgl]
    exact hb.2

/-- At most one chunk is closed per sentence, plus a final flush: the
output is bounded by the sentence list. -/
theorem chunkLoop_length_le (cs ov : Nat) :
    ∀ (rest : List Sentence) (chunks : List ChunkMetadata)
      (current : List Sentence) (t : Nat),
    (chunkLoop cs ov rest chunks current t).length ≤
      chunks.length + rest.length + 1
  | [], chunks, current, t => by
    rw [chunkLoop]
    by_cases hc : current.isEmpty <;> simp [hc]
  | s :: rest, chunks, current, t => by
    rw [chunkLoop]
    by_cases hc : current ≠ [] ∧ cs < t + s.tokens
    · rw [if_pos hc]
      have h := chunkLoop_length_le cs ov rest
        (chunks ++ [finalizeChunk current chunks.length])
        ((applyOverlap current ov).1 ++ [s])
        ((applyOverlap current ov).2 + s.tokens)
      simp only [List.length_append, List.length_singleton, List.length_nil,
        List.length_cons] at h ⊢
      omega
    · rw [if_neg hc]
      have h := chunkLoop_length_le cs ov rest chunks (current ++ [s])
        (t + s.tokens)
      simp only [List.length_cons] at h ⊢
      omega

/-- Two consecutive sentence groups share a boundary sentence: the second
group starts with the last sentence of the first. -/
def groupChain (g1 g2 : List Sentence) : Prop :=
  g2.headD defaultSentence = g1.getLastD defaultSentence

/-- Structure of the groups formed with overlap 0: the first group extends
the accumulator, groups are never empty, dropping the seeded head sentence
of every later group and concatenating restores the input sentences, and
each group starts with the previous group's last sentence. -/
theorem chunkGroupsGo_zero_spec (cs : Nat) :
    ∀ (rest current : List Sentence) (t : Nat), current ≠ [] →
    (∃ ext, (chunkGroupsGo cs 0 rest current t).headD [] = current ++ ext) ∧
    chunkGroupsGo cs 0 rest current t ≠ [] ∧
    (chunkGroupsGo cs 0 rest current t).headD [] ++
      (((chunkGroupsGo cs 0 rest current t).tail.map List.tail).join)
      = current ++ rest ∧
    List.Chain' groupChain (chunkGroupsGo cs 0 rest current t)
  | [], current, t, hne => by
    rw [chunkGroupsGo]
    have hc : current.isEmpty = false := by
      simpa [List.isEmpty_iff] using hne
    rw [hc]
    simp only [Bool.false_eq_true, if_false]
    refine ⟨⟨[], by simp⟩, by simp, by simp, ?_⟩
    exact List.chain'_singleton current
  | s :: rest, current, t, hne => by
    rw [chunkGroupsGo]
    by_cases hcond : current ≠ [] ∧ cs < t + s.tokens
    · rw [if_pos hcond]
      have hlast : current.getLast? = some (current.getLast hne) :=
        List.getLast?_eq_getLast current hne
      have hov := applyOverlap_zero hlast
      dsimp only
      simp only [hov]
      have hih := chunkGroupsGo_zero_spec cs rest
        ([current.getLast hne] ++ [s]) ((current.getLast hne).tokens + s.tokens)
        (by simp)
      obtain ⟨⟨ext, hext⟩, hne2, hrec, hchain⟩ := hih
      obtain ⟨g1, gs2, hgs⟩ : ∃ g1 gs2,
          chunkGroupsGo cs 0 rest ([current.getLast hne] ++ [s])
            ((current.getLast hne).tokens + s.tokens) = g1 :: gs2 := by
        cases hx : chunkGroupsGo cs 0 rest ([current.getLast hne] ++ [s])
            ((current.getLast hne).tokens + s.tokens) with
        | nil => exact absurd hx hne2
        | cons g1 gs2 => exact ⟨g1, gs2, rfl⟩
      rw [hgs] at hext hrec hchain
      simp only [List.headD_cons, List.tail_cons] at hext hrec
      have hg1 : g1 = current.getLast hne :: s :: ext := by
        simpa using hext
      have hJ : ext ++ ((gs2.map List.tail).join) = rest := by
        rw [hg1] at hrec
        simpa using hrec
      refine ⟨⟨[], by simp⟩, by simp, ?_, ?_⟩
      · rw [hgs]
        simp only [List.headD_cons, List.tail_cons, List.map_cons,
          List.join_cons]
        rw [hg1, List.tail_cons, ← hJ]
        simp [List.append_assoc]
      · rw [hgs]
        refine List.chain'_cons'.mpr ⟨?_, hchain⟩
        intro y hy
        simp only [List.head?_cons, Option.mem_def, Option.some.injEq] at hy
        subst hy
        show g1.headD defaultSentence = current.getLastD defaultSentence
        rw [hg1]
        simp only [List.headD_cons]
        rw [List.getLastD_eq_getLast?, hlast]
        rfl
    · rw [if_neg hcond]
      have hih := chunkGroupsGo_zero_spec cs rest (current ++ [s])
        (t + s.tokens) (by simp)
      obtain ⟨⟨ext, hext⟩, hne2, hrec, hchain⟩ := hih
      refine ⟨⟨[s] ++ ext, by rw [hext, List.append_assoc]⟩, hne2, ?_, hchain⟩
      rw [hrec, List.append_assoc, List.singleton_append]

/-- Finalized texts of numbered groups: the index does not influence the
text field. -/
theorem numberFrom_finalize_text :
    ∀ (gs : List (List Sentence)) (n : Nat),
    ((numberFrom n gs).map (fun p => finalizeChunk p.2 p.1)).map
        ChunkMetadata.text
      = gs.map (fun g => pyStrip (String.intercalate " " (g.map Sentence.text)))
  | [], _ => rfl
  | g :: gs, n => by
    rw [numberFrom_cons]
    simp only [List.map_cons, List.map_map]
    rw [← List.map_map, numberFrom_finalize_text gs (n + 1)]
    rfl

/-! ## Claim theorems about the chunker -/

/-- C6: every chunk returned by TextChunker.chunk has
start_char ≤ end_char, and both offsets lie within [0, len(text)]
(Nat offsets are nonnegative by construction). -/
theorem chunk_offsets_in_range (text : String) (chunkSize overlap : Nat)
    (c : ChunkMetadata) (hc : c ∈ chunk text chunkSize overlap) :
    c.start_char ≤ c.end_char ∧ c.start_char ≤ text.length ∧
    c.end_char ≤ text.length := by
  rw [chunk] at hc
  by_cases ht : text = ""
  · rw [if_pos ht] at hc
    cases hc
  · rw [if_neg ht, chunkLoop_eq_groups] at hc
    simp only [List.nil_append, List.length_nil] at hc
    rcases List.mem_map.mp hc with ⟨p, hp, hpc⟩
    have hg : p.2 ∈ chunkGroupsGo chunkSize overlap
        (splitIntoSentences text) [] 0 := numberFrom_mem hp
    have hsub := chunkGroupsGo_sublist chunkSize overlap
      (splitIntoSentences text) [] 0 (splitIntoSentences text)
      (by simp) p.2 hg
    have hwf := splitIntoSentences_wf text
    have hb := finalizeChunk_wf (i := p.1) hwf hsub.1 hsub.2
    rw [← hpc]
    exact ⟨hb.1, le_trans hb.1 hb.2, hb.2⟩

set_option maxRecDepth 20000 in
/-- Witness for chunk_offsets_in_range at a concrete text and chunk. -/
theorem chunk_offsets_in_range_witness :
    (⟨"A. B.", 0, 0, 5, 4⟩ : ChunkMetadata) ∈ chunk "A. B." 512 50 ∧
    ((⟨"A. B.", 0, 0, 5, 4⟩ : ChunkMetadata).start_char ≤
        (⟨"A. B.", 0, 0, 5, 4⟩ : ChunkMetadata).end_char ∧
      (⟨"A. B.", 0, 0, 5, 4⟩ : ChunkMetadata).start_char ≤ "A. B.".length ∧
      (⟨"A. B.", 0, 0, 5, 4⟩ : ChunkMetadata).end_char ≤ "A. B.".length) :=
  ⟨by decide, chunk_offsets_in_range "A. B." 512 50 ⟨"A. B.", 0, 0, 5, 4⟩
    (by decide)⟩

set_option maxRecDepth 20000 in
/-- C5 counterexample: with overlap 0 the first chunk's last sentence is
seeded into the second chunk: on the two-sentence text "A. B." with chunk
size 1 the sentence "A." occurs in both consecutive chunks and the
concatenated chunks do not reconstruct the sentence sequence. -/
theorem chunk_overlap_zero_duplicates :
    (chunk "A. B." 1 0).map ChunkMetadata.text = ["A.", "A. B."] ∧
    splitIntoSentences "A. B." = [⟨"A.", 0, 2, 2⟩, ⟨"B.", 2, 5, 2⟩] ∧
    chunkGroups (splitIntoSentences "A. B.") 1 0 =
      [[⟨"A.", 0, 2, 2⟩], [⟨"A.", 0, 2, 2⟩, ⟨"B.", 2, 5, 2⟩]] ∧
    (⟨"A.", 0, 2, 2⟩ : Sentence) ∈
      (chunkGroups (splitIntoSentences "A. B.") 1 0).getD 0 [] ∧
    (⟨"A.", 0, 2, 2⟩ : Sentence) ∈
      (chunkGroups (splitIntoSentences "A. B.") 1 0).getD 1 [] := by
  refine ⟨by decide, by decide, by decide, by decide, by decide⟩

/-- C5 amended: with overlap 0 each closed chunk's last sentence is still
seeded into the next chunk (the overlap loop always takes one sentence),
so consecutive chunks share exactly that boundary sentence; dropping the
seeded first sentence of every chunk after the first and concatenating in
order reconstructs the original sentence sequence with nothing else
dropped or duplicated. -/
theorem chunk_overlap_zero_reconstructs (text : String) (chunkSize : Nat)
    (htext : text ≠ "") :
    (chunk text chunkSize 0).map ChunkMetadata.text =
      (chunkGroups (splitIntoSentences text) chunkSize 0).map
        (fun g => pyStrip (String.intercalate " " (g.map Sentence.text))) ∧
    (chunkGroups (splitIntoSentences text) chunkSize 0).headD [] ++
      (((chunkGroups (splitIntoSentences text) chunkSize 0).tail.map
        List.tail).join) = splitIntoSentences text ∧
    List.Chain' groupChain
      (chunkGroups (splitIntoSentences text) chunkSize 0) := by
  obtain ⟨s0, rest0, hsents⟩ : ∃ s0 rest0,
      splitIntoSentences text = s0 :: rest0 := by
    cases hx : splitIntoSentences text with
    | nil => exact absurd hx (splitIntoSentences_ne_nil text)
    | cons a l => exact ⟨a, l, rfl⟩
  have hstep : chunkGroups (splitIntoSentences text) chunkSize 0
      = chunkGroupsGo chunkSize 0 rest0 [s0] s0.tokens := by
    rw [chunkGroups, hsents, chunkGroupsGo, if_neg (by simp)]
    simp
  have hspec := chunkGroupsGo_zero_spec chunkSize rest0 [s0] s0.tokens
    (by simp)
  refine ⟨?_, ?_, ?_⟩
  · rw [chunk, if_neg htext, chunkLoop_eq_groups]
    simp only [List.nil_append, List.length_nil]
    rw [chunkGroups]
    exact numberFrom_finalize_text _ 0
  · rw [hstep, hsents]
    have h3 := hspec.2.2.1
    simpa using h3
  · rw [hstep]
    exact hspec.2.2.2

set_option maxRecDepth 20000 in
/-- Witness for chunk_overlap_zero_reconstructs at text "A. B.". -/
theorem chunk_overlap_zero_reconstructs_witness :
    ("A. B." ≠ "") ∧
    ((chunk "A. B." 1 0).map ChunkMetadata.text =
      (chunkGroups (splitIntoSentences "A. B.") 1 0).map
        (fun g => pyStrip (String.intercalate " " (g.map Sentence.text))) ∧
    (chunkGroups (splitIntoSentences "A. B.") 1 0).headD [] ++
      (((chunkGroups (splitIntoSentences "A. B.") 1 0).tail.map
        List.tail).join) = splitIntoSentences "A. B." ∧
    List.Chain' groupChain (chunkGroups (splitIntoSentences "A. B.") 1 0)) :=
  ⟨by decide, chunk_overlap_zero_reconstructs "A. B." 1 (by decide)⟩

/-- C9: the chunker is total; the number of chunks is bounded by the
finite sentence list for every parameter pair (in particular when
overlap ≥ chunk size); empty input yields zero chunks; a single sentence
whose token estimate exceeds the chunk size is still emitted whole. -/
theorem chunk_terminates_and_edge_cases :
    (∀ chunkSize overlap : Nat, chunk "" chunkSize overlap = []) ∧
    (∀ (text : String) (chunkSize overlap : Nat),
      (chunk text chunkSize overlap).length ≤
        (splitIntoSentences text).length + 1) ∧
    (∀ (text : String) (chunkSize overlap : Nat) (s : Sentence),
      text ≠ "" → splitIntoSentences text = [s] → chunkSize < s.tokens →
      chunk text chunkSize overlap = [finalizeChunk [s] 0]) := by
  refine ⟨fun _ _ => rfl, ?_, ?_⟩
  · intro text cs ov
    rw [chunk]
    split
    · simp
    · have h := chunkLoop_length_le cs ov (splitIntoSentences text) [] [] 0
      simpa using h
  · intro text cs ov s ht hs _htok
    rw [chunk, if_neg ht, hs, chunkLoop, if_neg (by simp), chunkLoop]
    simp

set_option maxRecDepth 20000 in
/-- Witness for chunk_terminates_and_edge_cases: concrete hypotheses of
the oversized-sentence case, with overlap larger than the chunk size. -/
theorem chunk_terminates_and_edge_cases_witness :
    chunk "" 3 7 = [] ∧
    (chunk "A. B." 1 9).length ≤ (splitIntoSentences "A. B.").length + 1 ∧
    (("Hi." : String) ≠ "" ∧
      splitIntoSentences "Hi." = [⟨"Hi.", 0, 3, 2⟩] ∧
      1 < (⟨"Hi.", 0, 3, 2⟩ : Sentence).tokens) ∧
    chunk "Hi." 1 99 = [finalizeChunk [⟨"Hi.", 0, 3, 2⟩] 0] :=
  ⟨chunk_terminates_and_edge_cases.1 3 7,
   chunk_terminates_and_edge_cases.2.1 "A. B." 1 9,
   ⟨by decide, by decide, by decide⟩,
   chunk_terminates_and_edge_cases.2.2 "Hi." 1 99
     ⟨"Hi.", 0, 3, 2⟩ (by decide) (by decide) (by decide)⟩

/-! ## Document parser (backend/app/core/parser.py)

DocumentParser.parse dispatches on the lowercased file extension,
raising FileNotFoundError for a missing file, ValueError for an
unsupported extension, and wrapping any other extraction fault in a
RuntimeError.  PDF pages degrade per-page to the empty string. -/

/-- Python pathlib suffix: the substring from the last dot of the file
name, empty when there is no dot, the dot is the first character, or the
dot is the last character. -/
def pathSuffix (name : String) : String :=
  let cs := name.data
  let ridx := cs.reverse.findIdx (fun c => c = '.')
  if ridx = cs.length then ""
  else
    let i := cs.length - 1 - ridx
    if 0 < i ∧ i < cs.length - 1 then String.mk (cs.drop i) else ""

/-- Python str.lower (ASCII fragment). -/
def pyLower (s : String) : String := String.mk (s.data.map Char.toLower)

/-- One 3000-character page slice per unit of fuel; text length as fuel
always suffices since each slice consumes at least one character. -/
def splitTextFuel : Nat → List Char → List String
  | 0, _ => []
  | fuel + 1, cs =>
    if cs = [] then []
    else pyStrip (String.mk (cs.take 3000)) :: splitTextFuel fuel (cs.drop 3000)

/-- DocumentParser._split_text with the policy default page_size 3000:
fixed-size character windows, each stripped. -/
def splitText (text : String) : List String :=
  splitTextFuel text.data.length text.data

/-- The extraction behaviour of a file on disk, as seen by the parser:
a PDF opens into a list of pages whose extract_text either yields a text
(possibly empty or None, both degrading to "") or raises, modelled by
Option; a flat text file reads into its content; unreadable stands for
any extraction path raising an exception other than FileNotFoundError and
ValueError. -/
inductive FileData where
  | pdfFile (pages : List (Option String))
  | textFile (content : String)
  | unreadable
deriving Repr, DecidableEq

/-- The error taxonomy of DocumentParser.parse: FileNotFoundError,
ValueError for an unsupported extension, RuntimeError wrapping anything
else. -/
inductive ParseError where
  | fileNotFound (path : String)
  | unsupportedType (suffix : String)
  | runtimeFailure (path : String)
deriving Repr, DecidableEq

/-- DocumentParser._parse_pdf: one output page per source page, each
extract_text failure or None degrading to "", each page stripped. -/
def parsePdf (pages : List (Option String)) : List String :=
  pages.map (fun p => pyStrip (p.getD ""))

/-- DocumentParser._parse_text_file: empty content gives no pages,
otherwise fixed 3000-character windows. -/
def parseTextFile (content : String) : List String :=
  if content = "" then [] else splitText content

/-- DocumentParser.parse.  The Boolean records path.exists(); a mismatch
between extension and file shape raises inside the extractor and is
wrapped like any other extraction fault. -/
def parse (fileExists : Bool) (path : String) (data : FileData) :
    Except ParseError (List String) :=
  if ¬ fileExists then .error (.fileNotFound path)
  else
    let suffix := pyLower (pathSuffix path)
    if suffix = ".pdf" then
      match data with
      | .pdfFile pages => .ok (parsePdf pages)
      | _ => .error (.runtimeFailure path)
    else if suffix = ".txt" ∨ suffix = ".md" then
      match data with
      | .textFile content => .ok (parseTextFile content)
      | _ => .error (.runtimeFailure path)
    else .error (.unsupportedType suffix)

/-- C7: the parse error taxonomy — missing file gives the not-found
error; an extension other than .pdf/.txt/.md gives the validation error;
any other extraction fault gives the wrapped runtime error; a PDF always
parses as a whole, one output page per source page, with a failing page
degrading to the empty string. -/
theorem parse_error_taxonomy :
    (∀ (path : String) (data : FileData),
      parse false path data = .error (.fileNotFound path)) ∧
    (∀ (path : String) (data : FileData),
      pyLower (pathSuffix path) ≠ ".pdf" →
      pyLower (pathSuffix path) ≠ ".txt" →
      pyLower (pathSuffix path) ≠ ".md" →
      parse true path data =
        .error (.unsupportedType (pyLower (pathSuffix path)))) ∧
    (∀ (path : String),
      pyLower (pathSuffix path) = ".pdf" ∨ pyLower (pathSuffix path) = ".txt"
        ∨ pyLower (pathSuffix path) = ".md" →
      parse true path .unreadable = .error (.runtimeFailure path)) ∧
    (∀ (path : String) (pages : List (Option String)),
      pyLower (pathSuffix path) = ".pdf" →
      parse true path (.pdfFile pages) = .ok (parsePdf pages) ∧
      (parsePdf pages).length = pages.length ∧
      (∀ i : Nat, pages[i]? = some none → (parsePdf pages)[i]? = some "")) := by
  refine ⟨fun path data => rfl, ?_, ?_, ?_⟩
  · intro path data h1 h2 h3
    cases data <;> simp [parse, h1, h2, h3]
  · intro path hsupp
    rcases hsupp with h | h | h <;> simp [parse, h]
  · intro path pages hpdf
    refine ⟨by simp [parse, hpdf], by simp [parsePdf], ?_⟩
    intro i hi
    rw [parsePdf, List.getElem?_map, hi]
    rfl

/-- Witness for parse_error_taxonomy at concrete paths and data. -/
theorem parse_error_taxonomy_witness :
    (pyLower (pathSuffix "a.xyz") ≠ ".pdf" ∧
      pyLower (pathSuffix "a.xyz") ≠ ".txt" ∧
      pyLower (pathSuffix "a.xyz") ≠ ".md" ∧
      parse true "a.xyz" (.textFile "hello") =
        .error (.unsupportedType (pyLower (pathSuffix "a.xyz")))) ∧
    (pyLower (pathSuffix "b.md") = ".md" ∧
      parse true "b.md" .unreadable = .error (.runtimeFailure "b.md")) ∧
    (pyLower (pathSuffix "c.PDF") = ".pdf" ∧
      (parse true "c.PDF" (.pdfFile [some "x.", none]) =
          .ok (parsePdf [some "x.", none]) ∧
        (parsePdf [some "x.", none]).length = [some "x.", none].length ∧
        (∀ i : Nat, [some "x.", none][i]? = some none →
          (parsePdf [some "x.", none])[i]? = some ""))) :=
  ⟨⟨by decide, by decide, by decide,
    parse_error_taxonomy.2.1 "a.xyz" (.textFile "hello")
      (by decide) (by decide) (by decide)⟩,
   ⟨by decide, parse_error_taxonomy.2.2.1 "b.md" (Or.inr (Or.inr (by decide)))⟩,
   ⟨by decide, parse_error_taxonomy.2.2.2 "c.PDF" [some "x.", none]
      (by decide)⟩⟩

/-! ## The two content hash implementations (C10)

DocumentParser._compute_hash and DocumentIndexer._compute_file_hash both
stream the file through hashlib.sha256 in 8192-byte blocks.  The SHA-256
state machine is an external library; the two functions are embedded over
an abstract digest interface (a state type, an initial state, a block
update, and a hex finalizer), which is exactly what both call. -/

/-- One file read per unit of fuel; content length as fuel suffices since
a read returns at least one byte until the file is exhausted.  read(0)
returns the empty bytes object, ending the loop immediately. -/
def readBlocksFuel : Nat → Nat → List Nat → List (List Nat)
  | 0, _, _ => []
  | fuel + 1, chunkSize, content =>
    if content = [] ∨ chunkSize = 0 then []
    else content.take chunkSize :: readBlocksFuel fuel chunkSize
      (content.drop chunkSize)

/-- The block sequence produced by iterating file_handle.read(chunkSize)
until it returns empty bytes. -/
def readBlocks (chunkSize : Nat) (content : List Nat) : List (List Nat) :=
  readBlocksFuel content.length chunkSize content

/-- DocumentParser._compute_hash over an abstract streaming digest. -/
def parser_computeHash (σ : Type) (init : σ) (update : σ → List Nat → σ)
    (hexdigest : σ → String) (content : List Nat) : String :=
  hexdigest ((readBlocks 8192 content).foldl update init)

/-- DocumentIndexer._compute_file_hash over an abstract streaming
digest. -/
def indexer_computeFileHash (σ : Type) (init : σ)
    (update : σ → List Nat → σ) (hexdigest : σ → String)
    (content : List Nat) : String :=
  hexdigest ((readBlocks 8192 content).foldl update init)

/-- The streamed blocks reassemble to the whole content: the digest never
covers a partial file. -/
theorem readBlocksFuel_flatten :
    ∀ (fuel chunkSize : Nat) (content : List Nat), 0 < chunkSize →
    content.length ≤ fuel →
    (readBlocksFuel fuel chunkSize content).flatten = content
  | 0, chunkSize, content, hcs, hlen => by
    have : content = [] := List.length_eq_zero.mp (Nat.le_zero.mp hlen)
    subst this
    rfl
  | fuel + 1, chunkSize, content, hcs, hlen => by
    rw [readBlocksFuel]
    by_cases hc : content = [] ∨ chunkSize = 0
    · rw [if_pos hc]
      rcases hc with hc | hc
      · simp [hc]
      · omega
    · rw [if_neg hc]
      push_neg at hc
      have hne : content ≠ [] := hc.1
      have hlen2 : (content.drop chunkSize).length ≤ fuel := by
        rw [List.length_drop]
        have : 0 < content.length := List.length_pos.mpr hne
        omega
      rw [List.flatten_cons,
        readBlocksFuel_flatten fuel chunkSize (content.drop chunkSize) hcs hlen2,
        List.take_append_drop]

theorem readBlocks_flatten (chunkSize : Nat) (content : List Nat)
    (hcs : 0 < chunkSize) : (readBlocks chunkSize content).flatten = content :=
  readBlocksFuel_flatten content.length chunkSize content hcs (Nat.le_refl _)

/-- C10: the parser's and the indexer's hash functions are the same
function of the file content for every streaming digest implementation:
both read 8192-byte blocks and fold the digest update over them. -/
theorem hash_implementations_agree (σ : Type) (init : σ)
    (update : σ → List Nat → σ) (hexdigest : σ → String)
    (content : List Nat) :
    parser_computeHash σ init update hexdigest content =
      indexer_computeFileHash σ init update hexdigest content := rfl

/-! ## Indexing orchestrator (backend/app/services/indexer.py)

DocumentIndexer.index_document is embedded as a function from an explicit
store state to a run result.  The SQLite session of one knowledge base is
a list of Document rows, a list of Page rows, and the next primary key;
the Qdrant collection of the base is an optional list of points (none
while the collection does not exist).  Each session.commit() of the
Python code appends a snapshot of the relational state to the run's
commit trace.  The parser, the embedding service, and the content hasher
are constructor-injected collaborators in the Python code and enter the
model as function parameters over the file content. -/

/-- A row of the documents table (models/database.py, Document). -/
structure DocRecord where
  id : Nat
  filename : String
  path : String
  base_name : String
  total_pages : Option Nat
  file_hash : String
  indexed_at : Nat
deriving Repr, DecidableEq

/-- A row of the pages table (models/database.py, Page). -/
structure PageRecord where
  document_id : Nat
  page_num : Nat
  content : String
  char_count : Nat
deriving Repr, DecidableEq

/-- The payload stored with one Qdrant point: the chunk text plus the
metadata dict built in DocumentIndexer._chunk_pages. -/
structure ChunkPayload where
  idStr : String
  text : String
  document_id : Nat
  document_path : String
  filename : String
  page_num : Nat
  chunk_index : Nat
  page_chunk_index : Nat
  start_char : Nat
  end_char : Nat
  token_count : Nat
deriving Repr, DecidableEq

/-- One Qdrant point: id, embedding vector, payload.  The vector type is
abstract (the embedding provider is an external collaborator). -/
structure VectorPoint (V : Type) where
  id : String
  vector : V
  payload : ChunkPayload
deriving Repr, DecidableEq

/-- The relational store of one knowledge base. -/
structure RelState where
  documents : List DocRecord
  pages : List PageRecord
  nextDocId : Nat
deriving Repr, DecidableEq

def defaultRelState : RelState := ⟨[], [], 1⟩

/-- The two stores of one knowledge base: relational state and the
optional Qdrant collection (none while it does not exist). -/
structure SysState (V : Type) where
  rel : RelState
  vec : Option (List (VectorPoint V))
deriving Repr, DecidableEq

/-- The observable outcome of one index_document run: the returned
Document, the final store state, the trace of committed relational
snapshots, whether parsing / chunking / embedding ran, and whether the
run took the skip path. -/
structure RunResult (V : Type) where
  doc : DocRecord
  state : SysState V
  commits : List RelState
  didParse : Bool
  didChunk : Bool
  didEmbed : Bool
  skipped : Bool
deriving Repr, DecidableEq

/-- The constructor-injected collaborators of DocumentIndexer, as
functions of the file content: the content hasher (hashlib.sha256 is
deterministic in the bytes), the parser (a pure function of the bytes on
the success path), and the per-text embedding (embed_texts maps it over
the batch, returning one vector per text). -/
structure Collaborators (V : Type) where
  hashFn : String → String
  parseFn : String → List String
  embedOne : String → V

/-- SELECT Document WHERE path = ..., first row
(DocumentIndexer._get_or_create_document). -/
def findDocByPath (docs : List DocRecord) (path : String) : Option DocRecord :=
  docs.find? (fun d => d.path = path)

/-- The skip test of index_document line 70 and of
_get_or_create_document line 195: hash unchanged and page count known. -/
def skipCond (d : DocRecord) (fileHash : String) : Bool :=
  d.file_hash = fileHash && !(d.total_pages = none)

/-- UPDATE of the document row with the given primary key. -/
def setDoc (docs : List DocRecord) (d2 : DocRecord) : List DocRecord :=
  docs.map (fun d => if d.id = d2.id then d2 else d)

/-- DocumentIndexer._get_or_create_document: returns the row, the
relational state after it, and the commits it performed. -/
def getOrCreateDocument (rel : RelState) (path filename base fileHash : String)
    (now : Nat) : DocRecord × RelState × List RelState :=
  match findDocByPath rel.documents path with
  | some d =>
    if skipCond d fileHash then (d, rel, [])
    else
      let d2 : DocRecord :=
        { d with filename := filename, path := path, base_name := base,
                 file_hash := fileHash, total_pages := none, indexed_at := now }
      let rel2 := { rel with documents := setDoc rel.documents d2 }
      (d2, rel2, [rel2])
  | none =>
    let d2 : DocRecord :=
      ⟨rel.nextDocId, filename, path, base, none, fileHash, now⟩
    let rel2 := { rel with documents := rel.documents ++ [d2],
                           nextDocId := rel.nextDocId + 1 }
    (d2, rel2, [rel2])

/-- DocumentIndexer._store_pages: one Page row per page text, 1-based. -/
def makePages (docId : Nat) (pages : List String) : List PageRecord :=
  (numberFrom 1 pages).map (fun p => ⟨docId, p.1, p.2, p.2.length⟩)

/-- The inner loop of DocumentIndexer._chunk_pages over one page's
chunks: empty-after-strip chunk texts are dropped, every kept chunk gets
the deterministic id docId:pageNum:counter with a document-wide
counter. -/
def pageChunks (path filename : String) (docId pageNum : Nat) :
    List ChunkMetadata → Nat → List String × List ChunkPayload × Nat
  | [], counter => ([], [], counter)
  | c :: cs, counter =>
    let t := pyStrip c.text
    if t = "" then pageChunks path filename docId pageNum cs counter
    else
      let payload : ChunkPayload :=
        ⟨toString docId ++ ":" ++ toString pageNum ++ ":" ++ toString counter,
         t, docId, path, filename, pageNum, counter, c.index, c.start_char,
         c.end_char, c.token_count⟩
      let rest := pageChunks path filename docId pageNum cs (counter + 1)
      (t :: rest.1, payload :: rest.2.1, rest.2.2)

/-- The page loop of DocumentIndexer._chunk_pages, threading the
document-wide chunk counter; the chunker runs with its Python defaults
chunk_size 512 and overlap 50. -/
def chunkPagesGo (path filename : String) (docId : Nat) :
    List (Nat × String) → Nat → List String × List ChunkPayload
  | [], _ => ([], [])
  | (pageNum, content) :: rest, counter =>
    let pc := pageChunks path filename docId pageNum (chunk content 512 50)
      counter
    let rec2 := chunkPagesGo path filename docId rest pc.2.2
    (pc.1 ++ rec2.1, pc.2.1 ++ rec2.2)

/-- DocumentIndexer._chunk_pages. -/
def chunkPages (path filename : String) (docId : Nat) (pages : List String) :
    List String × List ChunkPayload :=
  chunkPagesGo path filename docId (numberFrom 1 pages) 0

/-- QdrantService upsert semantics: a point replaces any stored point
with the same id and is inserted otherwise. -/
def upsertPoints {V : Type} (existing pts : List (VectorPoint V)) :
    List (VectorPoint V) :=
  pts.foldl (fun acc p => acc.filter (fun q => q.id ≠ p.id) ++ [p]) existing

/-- QdrantService.add_documents: in this pipeline chunks, embeddings and
metadata have equal length by construction, the ValueError guard cannot
fire, and every metadata dict carries the deterministic chunk id, so the
uuid4 fallback is dead; the payload is the chunk text updated with the
metadata. -/
def addDocuments {V : Type} (chunks : List String) (embeddings : List V)
    (metadata : List ChunkPayload) : List (VectorPoint V) :=
  (chunks.zip (embeddings.zip metadata)).map
    (fun t => ⟨t.2.2.idStr, t.2.1, t.2.2⟩)

/-- DocumentIndexer._clear_document_vectors composed with the repository's
QdrantService: the indexer calls vectordb.delete_document_chunks, but
QdrantService (core/vectordb.py) defines no method of that name, so the
AttributeError fallback fires, logs, and deletes nothing.  The base name
and document path arguments are consequently unused. -/
def clearDocumentVectors {V : Type} (vec : Option (List (VectorPoint V)))
    (_base _path : String) : Option (List (VectorPoint V)) :=
  vec

/-- DocumentIndexer._ensure_collection composed with QdrantService:
get_collection raises while the collection is missing, in which case
recreate_collection creates it empty; otherwise nothing changes. -/
def ensureCollection {V : Type} (vec : Option (List (VectorPoint V))) :
    Option (List (VectorPoint V)) :=
  match vec with
  | none => some []
  | some pts => some pts

/-- DocumentIndexer.index_document on an existing file, over the success
path of its collaborators. -/
def indexDocument {V : Type} (C : Collaborators V) (st : SysState V)
    (path filename base content : String) (now : Nat) : RunResult V :=
  let fileHash := C.hashFn content
  let g := getOrCreateDocument st.rel path filename base fileHash now
  let doc := g.1
  let rel1 := g.2.1
  let commits1 := g.2.2
  if skipCond doc fileHash then
    ⟨doc, { st with rel := rel1 }, commits1, false, false, false, true⟩
  else
    let pages := C.parseFn content
    let rel2 :=
      { rel1 with pages := rel1.pages.filter (fun pg => pg.document_id ≠ doc.id) }
    let doc2 := { doc with total_pages := some pages.length, indexed_at := now }
    let rel3 := { rel2 with documents := setDoc rel2.documents doc2 }
    let rel4 := { rel3 with pages := rel3.pages ++ makePages doc.id pages }
    let cp := chunkPages path filename doc.id pages
    let vec1 := ensureCollection st.vec
    if cp.1 = [] then
      ⟨doc2, ⟨rel4, clearDocumentVectors vec1 base path⟩,
        commits1 ++ [rel2, rel3, rel4], true, true, false, false⟩
    else
      let embeddings := cp.1.map C.embedOne
      let vecCleared := clearDocumentVectors vec1 base path
      let vec2 := some (upsertPoints (vecCleared.getD [])
        (addDocuments cp.1 embeddings cp.2))
      ⟨doc2, ⟨rel4, vec2⟩, commits1 ++ [rel2, rel3, rel4], true, true, true,
        false⟩

/-! ## Store lemmas -/

/-- skipCond as a proposition. -/
theorem skipCond_iff (d : DocRecord) (h : String) :
    skipCond d h = true ↔ d.file_hash = h ∧ d.total_pages ≠ none := by
  simp [skipCond]

/-- Updating a row by primary key does not change the key column. -/
theorem setDoc_map_id (docs : List DocRecord) (d2 : DocRecord) :
    (setDoc docs d2).map DocRecord.id = docs.map DocRecord.id := by
  induction docs with
  | nil => rfl
  | cons x xs ih =>
    simp only [setDoc, List.map_cons] at ih ⊢
    by_cases h : x.id = d2.id
    · rw [if_pos h, ih, ← h]
    · rw [if_neg h, ih]

/-- Updating the row found by path keeps it the first row with that path,
provided primary keys are unique. -/
theorem find?_setDoc {docs : List DocRecord} {d d2 : DocRecord} {p : String}
    (hn : (docs.map DocRecord.id).Nodup)
    (hd : docs.find? (fun x => x.path = p) = some d)
    (hid : d2.id = d.id) (hp : d2.path = p) :
    (setDoc docs d2).find? (fun x => x.path = p) = some d2 := by
  induction docs with
  | nil => cases hd
  | cons x xs ih =>
    simp only [List.map_cons, List.nodup_cons] at hn
    by_cases hx : x.path = p
    · rw [List.find?_cons_of_pos _ (by simpa using hx)] at hd
      have hxd : x = d := by simpa using hd
      simp only [setDoc, List.map_cons]
      rw [if_pos (by rw [hxd, ← hid])]
      exact List.find?_cons_of_pos _ (by simpa using hp)
    · rw [List.find?_cons_of_neg _ (by simpa using hx)] at hd
      have hmem : d ∈ xs := List.mem_of_find?_eq_some hd
      have hne : ¬ x.id = d2.id := by
        rw [hid]
        intro hcontra
        exact hn.1 (hcontra ▸ List.mem_map_of_mem DocRecord.id hmem)
      simp only [setDoc, List.map_cons]
      rw [if_neg hne]
      rw [List.find?_cons_of_neg _ (by simpa using hx)]
      exact ih hn.2 hd

/-- Updating a freshly appended row whose key is new leaves the old rows
untouched. -/
theorem setDoc_append_fresh {docs : List DocRecord} {nd d2 : DocRecord}
    (h : ∀ x ∈ docs, x.id ≠ d2.id) (hnd : nd.id = d2.id) :
    setDoc (docs ++ [nd]) d2 = docs ++ [d2] := by
  rw [setDoc, List.map_append]
  congr 1
  · rw [List.map_congr_left (fun x hx => if_neg (h x hx))]
    exact List.map_id docs
  · simp [hnd]

/-- Appending a row with the searched path after rows without it makes it
the found row. -/
theorem find?_append_fresh {docs : List DocRecord} {d : DocRecord}
    {p : String} (hn : docs.find? (fun x => x.path = p) = none)
    (hd : d.path = p) :
    (docs ++ [d]).find? (fun x => x.path = p) = some d := by
  rw [List.find?_append, hn, Option.none_or]
  exact List.find?_cons_of_pos _ (by simpa using hd)

/-- The Page rows of one document. -/
def pagesOf (rel : RelState) (docId : Nat) : List PageRecord :=
  rel.pages.filter (fun p => p.document_id = docId)

theorem filter_filter_ne (pgs : List PageRecord) (docId : Nat) :
    (pgs.filter (fun pg => pg.document_id ≠ docId)).filter
      (fun pg => pg.document_id = docId) = [] := by
  induction pgs with
  | nil => rfl
  | cons x xs ih =>
    by_cases h : x.document_id = docId
    · rw [List.filter_cons_of_neg (by simpa using h)]
      exact ih
    · rw [List.filter_cons_of_pos (by simpa using h),
        List.filter_cons_of_neg (by simpa using h)]
      exact ih

theorem makePages_document_id :
    ∀ (docId : Nat) (pages : List String) (n : Nat) (pg : PageRecord),
    pg ∈ (numberFrom n pages).map
      (fun p : Nat × String => (⟨docId, p.1, p.2, p.2.length⟩ : PageRecord)) →
    pg.document_id = docId
  | _, [], _, pg, h => by simp [numberFrom] at h
  | docId, s :: ss, n, pg, h => by
    rw [numberFrom_cons, List.map_cons] at h
    rcases List.mem_cons.mp h with h | h
    · rw [h]
    · exact makePages_document_id docId ss (n + 1) pg h

theorem filter_makePages (docId : Nat) (pages : List String) :
    (makePages docId pages).filter (fun pg => pg.document_id = docId) =
      makePages docId pages := by
  rw [List.filter_eq_self]
  intro pg hpg
  simpa using makePages_document_id docId pages 1 pg hpg

/-! ## Claim theorems about the orchestrator -/

/-- C3: index_document skips exactly when the recomputed content hash
equals the stored document's hash and the stored page count is non-null;
on a skip it parses, chunks and embeds nothing, commits nothing, leaves
both stores untouched, and returns the stored Document. -/
theorem index_skip_iff {V : Type} (C : Collaborators V) (st : SysState V)
    (path filename base content : String) (now : Nat) :
    ((indexDocument C st path filename base content now).skipped = true ↔
      ∃ d, findDocByPath st.rel.documents path = some d ∧
        d.file_hash = C.hashFn content ∧ d.total_pages ≠ none) ∧
    ((indexDocument C st path filename base content now).skipped = true →
      (indexDocument C st path filename base content now).didParse = false ∧
      (indexDocument C st path filename base content now).didChunk = false ∧
      (indexDocument C st path filename base content now).didEmbed = false ∧
      (indexDocument C st path filename base content now).state = st ∧
      (indexDocument C st path filename base content now).commits = [] ∧
      findDocByPath st.rel.documents path =
        some (indexDocument C st path filename base content now).doc) := by
  cases hfind : findDocByPath st.rel.documents path with
  | none =>
    have hb2 : skipCond
        ⟨st.rel.nextDocId, filename, path, base, none, C.hashFn content, now⟩
        (C.hashFn content) = false := by
      simp [skipCond]
    simp only [indexDocument, getOrCreateDocument, hfind, hb2,
      Bool.false_eq_true, if_false]
    constructor
    · constructor
      · intro hsk
        exfalso
        revert hsk
        split <;> simp
      · rintro ⟨d2, hd2, _⟩
        exact Option.noConfusion hd2
    · intro hsk
      exfalso
      revert hsk
      split <;> simp
  | some d =>
    by_cases hsc : d.file_hash = C.hashFn content ∧ d.total_pages ≠ none
    · have hb : skipCond d (C.hashFn content) = true := (skipCond_iff _ _).mpr hsc
      simp only [indexDocument, getOrCreateDocument, hfind, hb, if_true]
      constructor
      · simp only [true_iff]
        exact ⟨d, rfl, hsc⟩
      · intro
        simp [hfind]
    · have hb : skipCond d (C.hashFn content) = false := by
        rw [← Bool.not_eq_true]
        intro hc
        exact hsc ((skipCond_iff _ _).mp hc)
      simp only [indexDocument, getOrCreateDocument, hfind, hb, Bool.false_eq_true,
        if_false]
      have hb2 : skipCond
          { d with filename := filename, path := path, base_name := base,
                   file_hash := C.hashFn content, total_pages := none,
                   indexed_at := now } (C.hashFn content) = false := by
        simp [skipCond]
      simp only [hb2, Bool.false_eq_true, if_false]
      constructor
      · constructor
        · intro hsk
          exfalso
          revert hsk
          split <;> simp
        · rintro ⟨d2, hd2, hcond⟩
          injection hd2 with hdd
          subst hdd
          exact absurd hcond hsc
      · intro hsk
        exfalso
        revert hsk
        split <;> simp

/-- After any run of index_document, the returned Document is the first
row stored under its path, carries the content hash of the indexed bytes,
and has a known page count — provided primary keys are unique and below
the autoincrement counter, as SQLite guarantees. -/
theorem index_post {V : Type} (C : Collaborators V) (st : SysState V)
    (path filename base content : String) (now : Nat)
    (hnodup : (st.rel.documents.map DocRecord.id).Nodup)
    (hbound : ∀ d ∈ st.rel.documents, d.id < st.rel.nextDocId) :
    findDocByPath
        (indexDocument C st path filename base content now).state.rel.documents
        path
      = some (indexDocument C st path filename base content now).doc ∧
    (indexDocument C st path filename base content now).doc.file_hash
      = C.hashFn content ∧
    (indexDocument C st path filename base content now).doc.total_pages
      ≠ none := by
  cases hfind : findDocByPath st.rel.documents path with
  | none =>
    have hb2 : skipCond
        ⟨st.rel.nextDocId, filename, path, base, none, C.hashFn content, now⟩
        (C.hashFn content) = false := by
      simp [skipCond]
    simp only [indexDocument, getOrCreateDocument, hfind, hb2,
      Bool.false_eq_true, if_false]
    have hfresh : ∀ x ∈ st.rel.documents,
        x.id ≠ (⟨st.rel.nextDocId, filename, path, base,
          some (C.parseFn content).length, C.hashFn content, now⟩ :
            DocRecord).id := by
      intro x hx
      exact Nat.ne_of_lt (hbound x hx)
    split <;>
    · refine ⟨?_, rfl, by simp⟩
      show findDocByPath (setDoc (st.rel.documents ++ [_]) _) path = _
      rw [@setDoc_append_fresh st.rel.documents
        ⟨st.rel.nextDocId, filename, path, base, none, C.hashFn content, now⟩
        ⟨st.rel.nextDocId, filename, path, base,
          some (C.parseFn content).length, C.hashFn content, now⟩
        hfresh rfl]
      exact find?_append_fresh hfind rfl
  | some d =>
    by_cases hsc : d.file_hash = C.hashFn content ∧ d.total_pages ≠ none
    · have hb : skipCond d (C.hashFn content) = true := (skipCond_iff _ _).mpr hsc
      simp only [indexDocument, getOrCreateDocument, hfind, hb, if_true]
      exact ⟨trivial, hsc.1, hsc.2⟩
    · have hb : skipCond d (C.hashFn content) = false := by
        rw [← Bool.not_eq_true]
        intro hc
        exact hsc ((skipCond_iff _ _).mp hc)
      have hb2 : skipCond
          { d with filename := filename, path := path, base_name := base,
                   file_hash := C.hashFn content, total_pages := none,
                   indexed_at := now } (C.hashFn content) = false := by
        simp [skipCond]
      simp only [indexDocument, getOrCreateDocument, hfind, hb, hb2,
        Bool.false_eq_true, if_false]
      have hstep1 : (setDoc st.rel.documents
          { d with filename := filename, path := path, base_name := base,
                   file_hash := C.hashFn content, total_pages := none,
                   indexed_at := now }).find? (fun x => x.path = path)
          = some { d with filename := filename, path := path, base_name := base,
                          file_hash := C.hashFn content, total_pages := none,
                          indexed_at := now } :=
        find?_setDoc hnodup hfind rfl rfl
      have hn2 : ((setDoc st.rel.documents
          { d with filename := filename, path := path, base_name := base,
                   file_hash := C.hashFn content, total_pages := none,
                   indexed_at := now }).map DocRecord.id).Nodup := by
        rw [setDoc_map_id]
        exact hnodup
      split <;>
      · refine ⟨?_, rfl, by simp⟩
        exact find?_setDoc hn2 hstep1 rfl rfl

/-- C8: running index_document twice in a row on the same bytes yields a
Document with the same id, the same content hash, and the same page count
both times (the second run skips and returns the stored row). -/
theorem index_idempotent {V : Type} (C : Collaborators V) (st : SysState V)
    (path filename base content : String) (now1 now2 : Nat)
    (hnodup : (st.rel.documents.map DocRecord.id).Nodup)
    (hbound : ∀ d ∈ st.rel.documents, d.id < st.rel.nextDocId) :
    (indexDocument C
        (indexDocument C st path filename base content now1).state
        path filename base content now2).doc.id
      = (indexDocument C st path filename base content now1).doc.id ∧
    (indexDocument C
        (indexDocument C st path filename base content now1).state
        path filename base content now2).doc.file_hash
      = (indexDocument C st path filename base content now1).doc.file_hash ∧
    (indexDocument C
        (indexDocument C st path filename base content now1).state
        path filename base content now2).doc.total_pages
      = (indexDocument C st path filename base content now1).doc.total_pages := by
  have hpost := index_post C st path filename base content now1 hnodup hbound
  set r1 := indexDocument C st path filename base content now1 with hr1
  have hb : skipCond r1.doc (C.hashFn content) = true :=
    (skipCond_iff _ _).mpr ⟨hpost.2.1, hpost.2.2⟩
  have hdoc : (indexDocument C r1.state path filename base content now2).doc
      = r1.doc := by
    rw [indexDocument]
    simp only [getOrCreateDocument, hpost.1, hb, if_true]
  rw [hdoc]
  exact ⟨rfl, rfl, rfl⟩

/-! ## Concrete fixtures for witnesses and counterexamples -/

/-- Concrete collaborators over the unit vector type: the hash is the
identity on the content (deterministic and collision-free on the inputs
used), the parser yields the content as one page, the embedding is
trivial. -/
def unitCollabs : Collaborators Unit := ⟨fun s => s, fun s => [s], fun _ => ()⟩

/-- A base whose document "p" is stored with a known page count and whose
stored hash equals the hash of content "C". -/
def stSkip : SysState Unit :=
  ⟨⟨[⟨1, "f.txt", "p", "b", some 2, "C", 0⟩], [⟨1, 1, "x", 1⟩], 2⟩, some []⟩

/-- An empty base. -/
def stEmpty : SysState Unit := ⟨⟨[], [], 1⟩, none⟩

/-- A base whose document "p" was previously indexed with hash "OLD" and
one stored page. -/
def stOld : SysState Unit :=
  ⟨⟨[⟨1, "f.txt", "p", "b", some 1, "OLD", 0⟩], [⟨1, 1, "old page", 8⟩], 2⟩,
    none⟩

/-- The vector point of the second chunk of the previous version of
document 1: its id 1:1:1 is not produced by the shrunk new version. -/
def oldPt1 : VectorPoint Unit :=
  ⟨"1:1:1", (), ⟨"1:1:1", "old b", 1, "p", "f.txt", 1, 1, 1, 3, 5, 1⟩⟩

/-- A base whose document "p" previously produced two chunk vectors. -/
def stOrphan : SysState Unit :=
  ⟨⟨[⟨1, "f.txt", "p", "b", some 1, "OLD", 0⟩], [⟨1, 1, "old", 3⟩], 2⟩,
    some [⟨"1:1:0", (), ⟨"1:1:0", "old a", 1, "p", "f.txt", 1, 0, 0, 0, 2, 1⟩⟩,
          oldPt1]⟩

set_option maxRecDepth 20000 in
/-- Witness for index_skip_iff at a concrete skipping run. -/
theorem index_skip_iff_witness :
    (indexDocument unitCollabs stSkip "p" "f.txt" "b" "C" 9).skipped = true ∧
    ((indexDocument unitCollabs stSkip "p" "f.txt" "b" "C" 9).didParse = false ∧
     (indexDocument unitCollabs stSkip "p" "f.txt" "b" "C" 9).didChunk = false ∧
     (indexDocument unitCollabs stSkip "p" "f.txt" "b" "C" 9).didEmbed = false ∧
     (indexDocument unitCollabs stSkip "p" "f.txt" "b" "C" 9).state = stSkip ∧
     (indexDocument unitCollabs stSkip "p" "f.txt" "b" "C" 9).commits = [] ∧
     findDocByPath stSkip.rel.documents "p" =
       some (indexDocument unitCollabs stSkip "p" "f.txt" "b" "C" 9).doc) :=
  ⟨by decide,
   (index_skip_iff unitCollabs stSkip "p" "f.txt" "b" "C" 9).2 (by decide)⟩

set_option maxRecDepth 20000 in
/-- Witness for index_idempotent at a concrete first-time index run. -/
theorem index_idempotent_witness :
    ((stEmpty.rel.documents.map DocRecord.id).Nodup ∧
      ∀ d ∈ stEmpty.rel.documents, d.id < stEmpty.rel.nextDocId) ∧
    ((indexDocument unitCollabs
        (indexDocument unitCollabs stEmpty "p" "f.txt" "b" "A. B." 1).state
        "p" "f.txt" "b" "A. B." 2).doc.id
      = (indexDocument unitCollabs stEmpty "p" "f.txt" "b" "A. B." 1).doc.id ∧
    (indexDocument unitCollabs
        (indexDocument unitCollabs stEmpty "p" "f.txt" "b" "A. B." 1).state
        "p" "f.txt" "b" "A. B." 2).doc.file_hash
      = (indexDocument unitCollabs stEmpty "p" "f.txt" "b" "A. B." 1).doc.file_hash ∧
    (indexDocument unitCollabs
        (indexDocument unitCollabs stEmpty "p" "f.txt" "b" "A. B." 1).state
        "p" "f.txt" "b" "A. B." 2).doc.total_pages
      = (indexDocument unitCollabs stEmpty "p" "f.txt" "b" "A. B." 1).doc.total_pages) :=
  ⟨⟨by decide, by decide⟩,
   index_idempotent unitCollabs stEmpty "p" "f.txt" "b" "A. B." 1 2
     (by decide) (by decide)⟩

set_option maxRecDepth 20000 in
/-- C2 counterexample: a concrete re-index run commits four separate
transactions, and the third committed state already stores the new hash
and the final page count while the document's Pages are absent; the new
Pages appear only in the fourth commit.  So a reachable stored state has
metadata claiming success with missing page content, and the page
replacement is not in the same transaction as the hash update. -/
theorem index_metadata_commit_precedes_pages :
    (indexDocument unitCollabs stOld "p" "f.txt" "b" "new" 5).commits.length
      = 4 ∧
    ((indexDocument unitCollabs stOld "p" "f.txt" "b" "new" 5).commits.getD 2
        defaultRelState).documents
      = [⟨1, "f.txt", "p", "b", some 1, "new", 5⟩] ∧
    ((indexDocument unitCollabs stOld "p" "f.txt" "b" "new" 5).commits.getD 2
        defaultRelState).pages = [] ∧
    ((indexDocument unitCollabs stOld "p" "f.txt" "b" "new" 5).commits.getD 3
        defaultRelState).pages = [⟨1, 1, "new", 3⟩] := by
  refine ⟨by decide, by decide, by decide, by decide⟩

/-- C2 amended: on every non-skip run the commit sequence is — first the
new hash with total_pages reset to None (so an interrupted run cannot be
skipped later), then the page delete, then the final hash and page count,
and only in a fourth separate commit the new Pages; consequently the
third committed state has final metadata while the document's Pages are
missing. -/
theorem index_commit_sequence {V : Type} (C : Collaborators V)
    (st : SysState V) (path filename base content : String) (now : Nat)
    (hnodup : (st.rel.documents.map DocRecord.id).Nodup)
    (hbound : ∀ d ∈ st.rel.documents, d.id < st.rel.nextDocId)
    (hns : (indexDocument C st path filename base content now).skipped
      = false) :
    (indexDocument C st path filename base content now).commits.length = 4 ∧
    (∃ d1, findDocByPath
        ((indexDocument C st path filename base content now).commits.getD 0
          defaultRelState).documents path = some d1 ∧
      d1.file_hash = C.hashFn content ∧ d1.total_pages = none) ∧
    pagesOf
      ((indexDocument C st path filename base content now).commits.getD 1
        defaultRelState)
      (indexDocument C st path filename base content now).doc.id = [] ∧
    (findDocByPath
        ((indexDocument C st path filename base content now).commits.getD 2
          defaultRelState).documents path
      = some (indexDocument C st path filename base content now).doc ∧
     (indexDocument C st path filename base content now).doc.total_pages
      = some (C.parseFn content).length ∧
     pagesOf
       ((indexDocument C st path filename base content now).commits.getD 2
         defaultRelState)
       (indexDocument C st path filename base content now).doc.id = []) ∧
    (pagesOf
        ((indexDocument C st path filename base content now).commits.getD 3
          defaultRelState)
        (indexDocument C st path filename base content now).doc.id
      = makePages (indexDocument C st path filename base content now).doc.id
          (C.parseFn content) ∧
     (indexDocument C st path filename base content now).commits.getD 3
        defaultRelState
      = (indexDocument C st path filename base content now).state.rel) := by
  cases hfind : findDocByPath st.rel.documents path with
  | none =>
    have hb2 : skipCond
        ⟨st.rel.nextDocId, filename, path, base, none, C.hashFn content, now⟩
        (C.hashFn content) = false := by
      simp [skipCond]
    have hfresh : ∀ x ∈ st.rel.documents,
        x.id ≠ (⟨st.rel.nextDocId, filename, path, base,
          some (C.parseFn content).length, C.hashFn content, now⟩ :
            DocRecord).id := by
      intro x hx
      exact Nat.ne_of_lt (hbound x hx)
    simp only [indexDocument, getOrCreateDocument, hfind, hb2,
      Bool.false_eq_true, if_false]
    split <;>
    · refine ⟨rfl, ⟨⟨st.rel.nextDocId, filename, path, base, none,
        C.hashFn content, now⟩, find?_append_fresh hfind rfl, rfl, rfl⟩,
        ?_, ⟨?_, rfl, ?_⟩, ?_, rfl⟩
      · exact filter_filter_ne st.rel.pages st.rel.nextDocId
      · show findDocByPath (setDoc (st.rel.documents ++ [_]) _) path = _
        rw [@setDoc_append_fresh st.rel.documents
          ⟨st.rel.nextDocId, filename, path, base, none, C.hashFn content, now⟩
          ⟨st.rel.nextDocId, filename, path, base,
            some (C.parseFn content).length, C.hashFn content, now⟩
          hfresh rfl]
        exact find?_append_fresh hfind rfl
      · exact filter_filter_ne st.rel.pages st.rel.nextDocId
      · show ((st.rel.pages.filter _) ++ makePages st.rel.nextDocId
          (C.parseFn content)).filter _ = _
        rw [List.filter_append, filter_filter_ne, filter_makePages,
          List.nil_append]
  | some d =>
    by_cases hsc : d.file_hash = C.hashFn content ∧ d.total_pages ≠ none
    · exfalso
      have hb : skipCond d (C.hashFn content) = true :=
        (skipCond_iff _ _).mpr hsc
      rw [indexDocument] at hns
      simp only [getOrCreateDocument, hfind, hb, if_true] at hns
      exact Bool.noConfusion hns
    · have hb : skipCond d (C.hashFn content) = false := by
        rw [← Bool.not_eq_true]
        intro hc
        exact hsc ((skipCond_iff _ _).mp hc)
      have hb2 : skipCond
          { d with filename := filename, path := path, base_name := base,
                   file_hash := C.hashFn content, total_pages := none,
                   indexed_at := now } (C.hashFn content) = false := by
        simp [skipCond]
      have hstep1 : (setDoc st.rel.documents
          { d with filename := filename, path := path, base_name := base,
                   file_hash := C.hashFn content, total_pages := none,
                   indexed_at := now }).find? (fun x => x.path = path)
          = some { d with filename := filename, path := path, base_name := base,
                          file_hash := C.hashFn content, total_pages := none,
                          indexed_at := now } :=
        find?_setDoc hnodup hfind rfl rfl
      have hn2 : ((setDoc st.rel.documents
          { d with filename := filename, path := path, base_name := base,
                   file_hash := C.hashFn content, total_pages := none,
                   indexed_at := now }).map DocRecord.id).Nodup := by
        rw [setDoc_map_id]
        exact hnodup
      simp only [indexDocument, getOrCreateDocument, hfind, hb, hb2,
        Bool.false_eq_true, if_false]
      split <;>
      · refine ⟨rfl, ⟨_, hstep1, rfl, rfl⟩, ?_, ⟨?_, rfl, ?_⟩, ?_, rfl⟩
        · exact filter_filter_ne _ _
        · exact find?_setDoc hn2 hstep1 rfl rfl
        · exact filter_filter_ne _ _
        · show ((st.rel.pages.filter _) ++ makePages d.id
            (C.parseFn content)).filter _ = _
          rw [List.filter_append, filter_filter_ne, filter_makePages,
            List.nil_append]

set_option maxRecDepth 20000 in
/-- Witness for index_commit_sequence at a concrete re-index run. -/
theorem index_commit_sequence_witness :
    ((stOld.rel.documents.map DocRecord.id).Nodup ∧
     (∀ d ∈ stOld.rel.documents, d.id < stOld.rel.nextDocId) ∧
     (indexDocument unitCollabs stOld "p" "f.txt" "b" "new" 5).skipped
       = false) ∧
    ((indexDocument unitCollabs stOld "p" "f.txt" "b" "new" 5).commits.length
       = 4 ∧
    (∃ d1, findDocByPath
        ((indexDocument unitCollabs stOld "p" "f.txt" "b" "new" 5).commits.getD
          0 defaultRelState).documents "p" = some d1 ∧
      d1.file_hash = unitCollabs.hashFn "new" ∧ d1.total_pages = none) ∧
    pagesOf
      ((indexDocument unitCollabs stOld "p" "f.txt" "b" "new" 5).commits.getD 1
        defaultRelState)
      (indexDocument unitCollabs stOld "p" "f.txt" "b" "new" 5).doc.id = [] ∧
    (findDocByPath
        ((indexDocument unitCollabs stOld "p" "f.txt" "b" "new" 5).commits.getD
          2 defaultRelState).documents "p"
      = some (indexDocument unitCollabs stOld "p" "f.txt" "b" "new" 5).doc ∧
     (indexDocument unitCollabs stOld "p" "f.txt" "b" "new" 5).doc.total_pages
      = some (unitCollabs.parseFn "new").length ∧
     pagesOf
       ((indexDocument unitCollabs stOld "p" "f.txt" "b" "new" 5).commits.getD
         2 defaultRelState)
       (indexDocument unitCollabs stOld "p" "f.txt" "b" "new" 5).doc.id = []) ∧
    (pagesOf
        ((indexDocument unitCollabs stOld "p" "f.txt" "b" "new" 5).commits.getD
          3 defaultRelState)
        (indexDocument unitCollabs stOld "p" "f.txt" "b" "new" 5).doc.id
      = makePages
          (indexDocument unitCollabs stOld "p" "f.txt" "b" "new" 5).doc.id
          (unitCollabs.parseFn "new") ∧
     (indexDocument unitCollabs stOld "p" "f.txt" "b" "new" 5).commits.getD 3
        defaultRelState
      = (indexDocument unitCollabs stOld "p" "f.txt" "b" "new" 5).state.rel)) :=
  ⟨⟨by decide, by decide, by decide⟩,
   index_commit_sequence unitCollabs stOld "p" "f.txt" "b" "new" 5
     (by decide) (by decide) (by decide)⟩

set_option maxRecDepth 20000 in
/-- C1: evaluating index_document at a shrunk document shows the missing
vector cleanup.  Document 1 previously stored chunk vectors 1:1:0 and
1:1:1; the new content produces exactly one chunk with id 1:1:0; after
re-indexing, the vector store still holds the previous version's id 1:1:1
with its stale payload, because _clear_document_vectors calls
delete_document_chunks, which QdrantService does not define, and the
AttributeError fallback silently skips the cleanup. -/
theorem clear_vectors_noop_leaves_orphan :
    ((chunkPages "p" "f.txt" 1 ["A. B."]).2.map ChunkPayload.idStr
      = ["1:1:0"]) ∧
    (indexDocument unitCollabs stOrphan "p" "f.txt" "b" "A. B." 5).skipped
      = false ∧
    ((indexDocument unitCollabs stOrphan "p" "f.txt" "b" "A. B." 5).state.vec.getD
        []).map (fun pt => pt.id) = ["1:1:1", "1:1:0"] ∧
    ((indexDocument unitCollabs stOrphan "p" "f.txt" "b" "A. B." 5).state.vec.getD
        []).filter (fun pt => pt.id = "1:1:1") = [oldPt1] := by
  refine ⟨by decide, by decide, by decide, by decide⟩

/-! ## Folder scan (DocumentIndexer.scan_and_index_folder) -/

/-- DocumentIndexer.supported_extensions. -/
def supportedExtensions : List String := [".pdf", ".txt", ".md"]

/-- Lexicographic comparison of character lists by code point: Python
string ordering. -/
def charListLe : List Char → List Char → Bool
  | [], _ => true
  | _ :: _, [] => false
  | a :: as, b :: bs =>
    if a.toNat < b.toNat then true
    else if b.toNat < a.toNat then false
    else charListLe as bs

/-- Python string comparison, ascending. -/
def strLe (a b : String) : Bool := charListLe a.data b.data

theorem charListLe_total : ∀ (as bs : List Char),
    charListLe as bs = true ∨ charListLe bs as = true
  | [], _ => Or.inl rfl
  | _ :: _, [] => Or.inr rfl
  | a :: as, b :: bs => by
    rw [charListLe, charListLe]
    by_cases h1 : a.toNat < b.toNat
    · exact Or.inl (by simp [h1])
    · by_cases h2 : b.toNat < a.toNat
      · exact Or.inr (by simp [h2])
      · simp only [h1, h2, if_false, if_neg, if_pos]
        have := charListLe_total as bs
        simpa [h1, h2] using this

theorem charListLe_trans : ∀ (as bs cs : List Char),
    charListLe as bs = true → charListLe bs cs = true →
    charListLe as cs = true
  | [], _, _, _, _ => rfl
  | a :: as, [], cs, h1, _ => by rw [charListLe] at h1; cases h1
  | a :: as, b :: bs, [], _, h2 => by rw [charListLe] at h2; cases h2
  | a :: as, b :: bs, c :: cs, h1, h2 => by
    rw [charListLe] at h1 h2 ⊢
    have key1 : a.toNat < b.toNat ∨
        (a.toNat = b.toNat ∧ charListLe as bs = true) := by
      by_cases hab : a.toNat < b.toNat
      · exact Or.inl hab
      · by_cases hba : b.toNat < a.toNat
        · rw [if_neg hab, if_pos hba] at h1
          cases h1
        · rw [if_neg hab, if_neg hba] at h1
          exact Or.inr ⟨by omega, h1⟩
    have key2 : b.toNat < c.toNat ∨
        (b.toNat = c.toNat ∧ charListLe bs cs = true) := by
      by_cases hbc : b.toNat < c.toNat
      · exact Or.inl hbc
      · by_cases hcb : c.toNat < b.toNat
        · rw [if_neg hbc, if_pos hcb] at h2
          cases h2
        · rw [if_neg hbc, if_neg hcb] at h2
          exact Or.inr ⟨by omega, h2⟩
    rcases key1 with hab | ⟨hab, hrest1⟩ <;>
      rcases key2 with hbc | ⟨hbc, hrest2⟩
    · rw [if_pos (by omega : a.toNat < c.toNat)]
    · rw [if_pos (by omega : a.toNat < c.toNat)]
    · rw [if_pos (by omega : a.toNat < c.toNat)]
    · rw [if_neg (by omega : ¬ a.toNat < c.toNat),
        if_neg (by omega : ¬ c.toNat < a.toNat)]
      exact charListLe_trans as bs cs hrest1 hrest2

theorem strLe_total (a b : String) : strLe a b = true ∨ strLe b a = true :=
  charListLe_total a.data b.data

theorem strLe_trans {a b c : String} (h1 : strLe a b = true)
    (h2 : strLe b c = true) : strLe a c = true :=
  charListLe_trans a.data b.data c.data h1 h2

/-- Insertion into a sorted list (Python sorted is ascending
lexicographic on the path strings). -/
def insertSorted (x : String) : List String → List String
  | [] => [x]
  | y :: ys => if strLe x y then x :: y :: ys else y :: insertSorted x ys

/-- Python sorted() over file names. -/
def sortStrings (l : List String) : List String := l.foldr insertSorted []

/-- The files a folder scan attempts: the directory listing filtered to
supported extensions (lowercased suffix), sorted. -/
def scanFiles (listing : List String) : List String :=
  sortStrings (listing.filter
    (fun n => supportedExtensions.contains (pyLower (pathSuffix n))))

/-- The per-file loop of scan_and_index_folder: the step function stands
for self.index_document, which either returns a document and the evolved
store state or raises; a raise is caught, logged, reported as a progress
message, and the scan continues with the state unchanged by the failed
file. -/
def scanGo {V : Type}
    (step : SysState V → String → Except String (DocRecord × SysState V)) :
    List String → SysState V → List DocRecord × SysState V × List String
  | [], st => ([], st, [])
  | f :: fs, st =>
    match step st f with
    | .ok r =>
      let rest := scanGo step fs r.2
      (r.1 :: rest.1, rest.2.1, rest.2.2)
    | .error e =>
      let rest := scanGo step fs st
      (rest.1, rest.2.1, ("Failed to index " ++ f ++ ": " ++ e) :: rest.2.2)

/-- DocumentIndexer.scan_and_index_folder: returns the successfully
indexed documents, the final state, and the failure messages. -/
def scanAndIndexFolder {V : Type}
    (step : SysState V → String → Except String (DocRecord × SysState V))
    (st : SysState V) (listing : List String) :
    List DocRecord × SysState V × List String :=
  scanGo step (scanFiles listing) st

theorem insertSorted_length (x : String) (l : List String) :
    (insertSorted x l).length = l.length + 1 := by
  induction l with
  | nil => rfl
  | cons y ys ih =>
    rw [insertSorted]
    by_cases h : strLe x y
    · rw [if_pos h]
      rfl
    · rw [if_neg h, List.length_cons, List.length_cons, ih]

theorem sortStrings_length (l : List String) :
    (sortStrings l).length = l.length := by
  induction l with
  | nil => rfl
  | cons y ys ih =>
    show (insertSorted y (sortStrings ys)).length = ys.length + 1
    rw [insertSorted_length, ih]

theorem insertSorted_mem {z x : String} :
    ∀ {l : List String}, z ∈ insertSorted x l → z = x ∨ z ∈ l
  | [], h => by simpa [insertSorted] using h
  | y :: ys, h => by
    rw [insertSorted] at h
    by_cases hxy : strLe x y
    · rw [if_pos hxy] at h
      rcases List.mem_cons.mp h with h | h
      · exact Or.inl h
      · exact Or.inr h
    · rw [if_neg hxy] at h
      rcases List.mem_cons.mp h with h | h
      · exact Or.inr (h ▸ List.mem_cons_self y ys)
      · rcases insertSorted_mem h with h | h
        · exact Or.inl h
        · exact Or.inr (List.mem_cons_of_mem y h)

theorem insertSorted_sorted (x : String) {l : List String}
    (h : l.Pairwise (fun a b => strLe a b = true)) :
    (insertSorted x l).Pairwise (fun a b => strLe a b = true) := by
  induction l with
  | nil => exact List.pairwise_singleton _ x
  | cons y ys ih =>
    rw [insertSorted]
    rcases List.pairwise_cons.mp h with ⟨hy, hys⟩
    by_cases hxy : strLe x y
    · rw [if_pos hxy]
      refine List.pairwise_cons.mpr ⟨?_, h⟩
      intro z hz
      rcases List.mem_cons.mp hz with hz | hz
      · exact hz ▸ hxy
      · exact strLe_trans hxy (hy z hz)
    · rw [if_neg hxy]
      refine List.pairwise_cons.mpr ⟨?_, ih hys⟩
      intro z hz
      rcases insertSorted_mem hz with hz | hz
      · subst hz
        rcases strLe_total z y with ht | ht
        · exact absurd ht hxy
        · exact ht
      · exact hy z hz

theorem sortStrings_sorted (l : List String) :
    (sortStrings l).Pairwise (fun a b => strLe a b = true) := by
  induction l with
  | nil => exact List.Pairwise.nil
  | cons y ys ih => exact insertSorted_sorted y ih

/-- Every attempted file contributes exactly one success or one failure
message: a per-file error never aborts the scan. -/
theorem scanGo_counts {V : Type}
    (step : SysState V → String → Except String (DocRecord × SysState V)) :
    ∀ (files : List String) (st : SysState V),
    (scanGo step files st).1.length + (scanGo step files st).2.2.length
      = files.length
  | [], st => rfl
  | f :: fs, st => by
    rw [scanGo]
    cases hstep : step st f with
    | ok r =>
      dsimp only
      simp only [List.length_cons]
      have h := scanGo_counts step fs r.2
      omega
    | error e =>
      dsimp only
      simp only [List.length_cons]
      have h := scanGo_counts step fs st
      omega

/-- C4 amended: the scan filters the listing to supported extensions
before indexing (an unsupported file is silently ignored, producing no
failure message), processes the remaining files in ascending lexicographic
order, catches every per-file error and continues with the state the
failed file left untouched, and returns exactly the successfully indexed
documents in order. -/
theorem scan_folder_behaviour {V : Type}
    (step : SysState V → String → Except String (DocRecord × SysState V))
    (st : SysState V) (listing : List String) :
    ((scanAndIndexFolder step st listing).1.length +
        (scanAndIndexFolder step st listing).2.2.length
      = (listing.filter
          (fun n => supportedExtensions.contains (pyLower (pathSuffix n)))).length) ∧
    (scanFiles listing).Pairwise (fun a b => strLe a b = true) ∧
    (∀ (f e : String) (fs : List String) (st2 : SysState V),
      step st2 f = .error e →
      scanGo step (f :: fs) st2 =
        ((scanGo step fs st2).1, (scanGo step fs st2).2.1,
          ("Failed to index " ++ f ++ ": " ++ e) ::
            (scanGo step fs st2).2.2)) ∧
    (∀ (f : String) (d : DocRecord) (st2 st3 : SysState V)
        (fs : List String),
      step st2 f = .ok (d, st3) →
      scanGo step (f :: fs) st2 =
        (d :: (scanGo step fs st3).1, (scanGo step fs st3).2.1,
          (scanGo step fs st3).2.2)) := by
  refine ⟨?_, sortStrings_sorted _, ?_, ?_⟩
  · rw [scanAndIndexFolder, scanGo_counts, scanFiles, sortStrings_length]
  · intro f e fs st2 hstep
    rw [scanGo, hstep]
  · intro f d st2 st3 fs hstep
    rw [scanGo, hstep]

/-- C4 counterexample, the spec scenario: a folder with two supported
files and one unsupported file indexes exactly two documents and reports
zero failure messages — the unsupported file is filtered out before
indexing rather than reported, contradicting the claimed single failure
message. -/
def okStep : SysState Unit → String → Except String (DocRecord × SysState Unit) :=
  fun st _ => .ok (⟨0, "", "", "", none, "", 0⟩, st)

theorem scan_unsupported_file_not_reported :
    scanFiles ["b.txt", "c.xyz", "a.txt"] = ["a.txt", "b.txt"] ∧
    (scanAndIndexFolder okStep stEmpty ["b.txt", "c.xyz", "a.txt"]).1.length
      = 2 ∧
    (scanAndIndexFolder okStep stEmpty ["b.txt", "c.xyz", "a.txt"]).2.2
      = [] := by
  refine ⟨by decide, by decide, by decide⟩

/-- A step that fails on one specific file, for the witness. -/
def errStep : SysState Unit → String → Except String (DocRecord × SysState Unit) :=
  fun st f =>
    if f = "bad.txt" then .error "boom"
    else .ok (⟨0, "", "", "", none, "", 0⟩, st)

/-- Witness for scan_folder_behaviour: the error-continuation and the
success-prepend cases at concrete inputs. -/
theorem scan_folder_behaviour_witness :
    ((scanAndIndexFolder errStep stEmpty ["bad.txt", "a.txt"]).1.length +
        (scanAndIndexFolder errStep stEmpty ["bad.txt", "a.txt"]).2.2.length
      = (["bad.txt", "a.txt"].filter
          (fun n => supportedExtensions.contains (pyLower (pathSuffix n)))).length) ∧
    (scanFiles ["bad.txt", "a.txt"]).Pairwise
      (fun a b => strLe a b = true) ∧
    (errStep stEmpty "bad.txt" = .error "boom" ∧
      scanGo errStep ["bad.txt", "a.txt"] stEmpty =
        ((scanGo errStep ["a.txt"] stEmpty).1,
          (scanGo errStep ["a.txt"] stEmpty).2.1,
          ("Failed to index " ++ "bad.txt" ++ ": " ++ "boom") ::
            (scanGo errStep ["a.txt"] stEmpty).2.2)) ∧
    (errStep stEmpty "a.txt" = .ok (⟨0, "", "", "", none, "", 0⟩, stEmpty) ∧
      scanGo errStep ["a.txt"] stEmpty =
        ((⟨0, "", "", "", none, "", 0⟩ : DocRecord) ::
            (scanGo errStep [] stEmpty).1,
          (scanGo errStep [] stEmpty).2.1,
          (scanGo errStep [] stEmpty).2.2)) :=
  ⟨(scan_folder_behaviour errStep stEmpty ["bad.txt", "a.txt"]).1,
   (scan_folder_behaviour errStep stEmpty ["bad.txt", "a.txt"]).2.1,
   ⟨rfl,
    (scan_folder_behaviour errStep stEmpty ["bad.txt", "a.txt"]).2.2.1
      "bad.txt" "boom" ["a.txt"] stEmpty rfl⟩,
   ⟨rfl,
    (scan_folder_behaviour errStep stEmpty ["bad.txt", "a.txt"]).2.2.2
      "a.txt" ⟨0, "", "", "", none, "", 0⟩ stEmpty stEmpty [] rfl⟩⟩

end Rag
